import Mathlib

/-!
# Verification of `scripts/inventory_audit.py`

A shallow embedding of the Synnergy inventory-audit script together with
proofs about its behaviour.  The script parses a documentation file for
referenced repository paths, diffs them against the actual file tree,
counts files per top-level directory, scrapes dependency manifests
(`go.mod`, `package.json`), and renders a markdown report plus a JSON
summary.

Modelling conventions:
* Python strings are Lean `String`s (`List Char` under the hood); the few
  places where Python raises an exception are modelled with `Option` or
  `Except`.
* Python `set[str]` values are `Finset String`; `sorted(...)` is
  `Finset.sort (· ≤ ·)`, which matches Python's lexicographic order on
  code points.
* Character classes (`\w`, `str.strip`, `str.splitlines`) are modelled
  over their ASCII behaviour, which covers every string the script is
  specified on.
-/

namespace InventoryAudit

/-! ## Python string primitives -/

/-- Python `s.split(sep)` for a single-character separator: splits at every
occurrence of `sep`, keeping empty pieces, so the result is always
non-empty (`"".split("/") == [""]`). -/
def pySplit (sep : Char) : List Char → List (List Char)
  | [] => [[]]
  | c :: cs =>
    match pySplit sep cs with
    | [] => [[]]
    | p :: ps => if c = sep then [] :: p :: ps else (c :: p) :: ps

/-- The slash-separated parts of a path, as strings
(models `p.split("/")`). -/
def pathParts (p : String) : List String :=
  (pySplit '/' p.toList).map String.mk

/-- ASCII whitespace as stripped by Python `str.strip()`. -/
def isPyWs (c : Char) : Bool :=
  c = ' ' || c = '\t' || c = '\n' || c = '\r' || c = '\x0b' || c = '\x0c'

/-- Python `str.strip()` (ASCII whitespace). -/
def pyStrip (s : String) : String :=
  String.mk (((s.toList.dropWhile isPyWs).reverse.dropWhile isPyWs).reverse)

/-- Python `str.splitlines()` restricted to the line breaks `\n`, `\r\n`
and `\r` (the exotic Unicode breaks never occur in manifests). Unlike
`split`, a trailing line break produces no trailing empty line. -/
def pySplitlinesAux : List Char → List Char → List (List Char)
  | acc, [] => if acc.isEmpty then [] else [acc.reverse]
  | acc, '\r' :: '\n' :: cs => acc.reverse :: pySplitlinesAux [] cs
  | acc, '\r' :: cs => acc.reverse :: pySplitlinesAux [] cs
  | acc, '\n' :: cs => acc.reverse :: pySplitlinesAux [] cs
  | acc, c :: cs => pySplitlinesAux (c :: acc) cs

/-- Python `text.splitlines()`. -/
def pySplitlines (s : String) : List String :=
  (pySplitlinesAux [] s.toList).map String.mk

/-- Python `s.startswith(pre)` (computed on the character lists). -/
def pyStartsWith (s pre : String) : Bool :=
  pre.toList.isPrefixOf s.toList

/-- Python `s.endswith(suf)` (computed on the character lists). -/
def pyEndsWith (s suf : String) : Bool :=
  suf.toList.isSuffixOf s.toList

/-! ## Path extractor (`FILE_PATTERN` and `parse_documented_files`) -/

/-- Characters matched by the pattern's character class: `\w` (over
ASCII), dot, slash and dash. -/
def isPathChar (c : Char) : Bool :=
  c.isAlphanum || c = '_' || c = '.' || c = '/' || c = '-'

/-- The literal prefix of `FILE_PATTERN`, `"synnergy-network/"`. -/
def filePrefix : List Char := "synnergy-network/".toList

/-- Greedily take the longest run of path characters (the `+` of the
pattern), returning the run and the remainder. -/
def takePathChars : List Char → List Char × List Char
  | [] => ([], [])
  | c :: cs =>
    if isPathChar c then
      let (m, r) := takePathChars cs
      (c :: m, r)
    else ([], c :: cs)

/-- Try to match `FILE_PATTERN` at the head of `cs`: the literal prefix
followed by at least one path character.  Returns the matched characters
and the remainder. -/
def tryMatch (cs : List Char) : Option (List Char × List Char) :=
  if filePrefix.isPrefixOf cs then
    match takePathChars (cs.drop filePrefix.length) with
    | ([], _) => none
    | (m, r) => some (filePrefix ++ m, r)
  else none

/-- `re.findall` scanning: try the pattern at each position, emit
non-overlapping matches left to right, resuming after each match.  The
fuel is the input length, which bounds the number of scanning steps. -/
def findallGo : Nat → List Char → List String
  | 0, _ => []
  | _ + 1, [] => []
  | fuel + 1, c :: cs =>
    match tryMatch (c :: cs) with
    | some (m, r) => String.mk m :: findallGo fuel r
    | none => findallGo fuel cs

/-- `FILE_PATTERN.findall(line)`. -/
def findall (line : String) : List String :=
  findallGo line.toList.length line.toList

/-- The three bare top-level directory references skipped by
`parse_documented_files`. -/
def EXCLUDED_ROOTS : List String :=
  ["synnergy-network/core", "synnergy-network/GUI", "synnergy-network/cmd"]

/-- `parse_documented_files()`, as a function of the documentation file's
lines: collect every pattern match on every line into a set, skipping the
three bare roots. -/
def parse_documented_files (docLines : List String) : Finset String :=
  docLines.foldl
    (fun files line =>
      (findall line).foldl
        (fun files m => if m ∈ EXCLUDED_ROOTS then files else insert m files)
        files)
    ∅

/-! ## Static configuration (`OWNER_MAP`) -/

/-- `OWNER_MAP`: owning team per top-level directory name. -/
def OWNER_MAP : List (String × String) :=
  [("core", "Core Team"), ("GUI", "GUI Team"), ("cmd", "CLI Team")]

/-- `seg in OWNER_MAP` (Python key-membership test). -/
def inOwnerMap (seg : String) : Bool :=
  (OWNER_MAP.lookup seg).isSome

/-- `OWNER_MAP.get(seg, "Unassigned")`. -/
def ownerMapGetD (seg : String) : String :=
  (OWNER_MAP.lookup seg).getD "Unassigned"

/-! ## `compute_counts` -/

/-- One `counts[key] += 1` update on the association list that models the
`defaultdict(int)` (a fresh key is appended with count 1). -/
def bumpCount : List (String × Nat) → String → List (String × Nat)
  | [], k => [(k, 1)]
  | (k', v) :: rest, k =>
    if k' = k then (k', v + 1) :: rest else (k', v) :: bumpCount rest k

/-- The loop body of `compute_counts`: `parts = p.split("/")`, and
`if len(parts) > 1 and parts[1] in OWNER_MAP: counts[parts[1]] += 1`.
The length guard makes the `parts[1]` access safe. -/
def countStep (counts : List (String × Nat)) (p : String) : List (String × Nat) :=
  let parts := pathParts p
  if h : 1 < parts.length then
    if inOwnerMap parts[1] then bumpCount counts parts[1] else counts
  else counts

/-- `compute_counts(paths)`: files per top-level directory, as the
association list built by the Python loop. -/
def compute_counts (paths : List String) : List (String × Nat) :=
  paths.foldl countStep []

/-- `counts.get(k, 0)`, as used by the renderers. -/
def countsGet (counts : List (String × Nat)) (k : String) : Nat :=
  (counts.lookup k).getD 0

/-- The second slash-separated segment of a path, when it exists. -/
def secondSeg (p : String) : Option String :=
  match pathParts p with
  | _ :: seg :: _ => some seg
  | _ => none

/-! ## Block-style manifest parsing (`parse_go_mod`) -/

/-- The remainder of a single-line requirement declaration:
`line.split("require ", 1)[1]` for a line starting with `"require "`,
i.e. everything after the 8-character keyword. -/
def requireRemainder (line : String) : String := String.mk (line.toList.drop 8)

/-- One iteration of the `parse_go_mod` loop over the stripped line, on
the state `(deps, in_require)`, mirroring the Python `if`/`elif` chain. -/
def goModStep (st : List String × Bool) (rawLine : String) : List String × Bool :=
  let line := pyStrip rawLine
  let (deps, inreq) := st
  if pyStartsWith line "require (" then (deps, true)
  else if inreq && (line == ")") then (deps, false)
  else if inreq && (line != "") then (deps ++ [line], inreq)
  else if pyStartsWith line "require " && !pyEndsWith line "(" then
    (deps ++ [requireRemainder line], inreq)
  else (deps, inreq)

/-- `parse_go_mod` on the manifest's lines. -/
def parse_go_mod_lines (lines : List String) : List String :=
  (lines.foldl goModStep ([], false)).1

/-- `parse_go_mod(path)`, as a function of the file's text. -/
def parse_go_mod (text : String) : List String :=
  parse_go_mod_lines (pySplitlines text)

/-- Modelled from the spec's description of Format A, to be compared with
`parse_go_mod_lines`: a block is opened by a `"require ("` marker line and
closed by a `")"` delimiter line; each non-blank interior line is a
dependency entry; outside a block, a single-line requirement declaration
contributes the remainder after the requirement keyword; nothing else is
returned. -/
def goModSpecScan (inBlock : Bool) : List String → List String
  | [] => []
  | l :: ls =>
    let t := pyStrip l
    if pyStartsWith t "require (" then goModSpecScan true ls
    else if inBlock then
      if t == ")" then goModSpecScan false ls
      else if t != "" then t :: goModSpecScan true ls
      else goModSpecScan true ls
    else if pyStartsWith t "require " && !pyEndsWith t "(" then
      requireRemainder t :: goModSpecScan false ls
    else goModSpecScan false ls

/-! ## JSON data model (`json.loads` / `json.dumps` values) -/

/-- JSON values as produced by Python's `json` module on the manifests and
summaries this script handles.  Numbers are modelled as the non-negative
integers the script produces and consumes (floating point literals are
outside the model); objects keep their key/value pairs in insertion
order, matching `dict`. -/
inductive Json where
  | null
  | bool (b : Bool)
  | num (n : Nat)
  | str (s : String)
  | arr (xs : List Json)
  | obj (kvs : List (String × Json))

/-- The two ways a run of the manifest parsers can raise: a
`json.JSONDecodeError` from `json.loads`, or an `AttributeError` from
calling `.get`/`.items()` on a non-`dict` value. -/
inductive PyErr where
  | jsonDecodeError
  | attributeError
  deriving DecidableEq

/-- `data.get(key, {})` on a JSON object's pair list. -/
def pyGet (kvs : List (String × Json)) (key : String) : Json :=
  (kvs.lookup key).getD (Json.obj [])

/-- `.items()` on a value that must be an object; any other shape raises
`AttributeError`. -/
def sectionItems : Json → Except PyErr (List (String × Json))
  | .obj kvs => .ok kvs
  | _ => .error .attributeError

/-- Decimal digit character. -/
def decimalDigitChar (d : Nat) : Char := Char.ofNat (48 + d)

/-- Decimal digits of `n`, least significant first, with explicit fuel
(`fuel ≥ n` is enough). -/
def natDigitsRev : Nat → Nat → List Nat
  | 0, _ => []
  | _ + 1, 0 => []
  | fuel + 1, n + 1 => ((n + 1) % 10) :: natDigitsRev fuel ((n + 1) / 10)

/-- Python's decimal rendering of a non-negative integer (`str(n)`). -/
def decimalRepr (n : Nat) : String :=
  if n = 0 then "0"
  else String.mk (((natDigitsRev n n).reverse).map decimalDigitChar)

/-- Python `repr` of a JSON value, used by f-string formatting of
container values; string escaping inside `repr` is elided since the
script never formats containers. -/
def pyRepr : Json → String
  | .null => "None"
  | .bool b => if b then "True" else "False"
  | .num n => decimalRepr n
  | .str s => "'" ++ s ++ "'"
  | .arr xs =>
      "[" ++ String.intercalate ", " (xs.attach.map (fun x => pyRepr x.1)) ++ "]"
  | .obj kvs =>
      "\x7b" ++ String.intercalate ", "
        (kvs.attach.map (fun e => "'" ++ e.1.1 ++ "': " ++ pyRepr e.1.2)) ++ "\x7d"
decreasing_by
  · have := List.sizeOf_lt_of_mem x.2
    simp only [Json.arr.sizeOf_spec]
    omega
  · have := List.sizeOf_lt_of_mem e.2
    obtain ⟨⟨k, v⟩, hm⟩ := e
    simp only [Json.obj.sizeOf_spec]
    simp only [Prod.mk.sizeOf_spec] at this
    omega

/-- Python `str()` of a JSON value, as used by the f-string
`f"{name} {version}"`: a string formats as itself, anything else as its
`str` form. -/
def pyFStr : Json → String
  | .str s => s
  | j => pyRepr j

/-- One dependency entry: `f"{name} {version}"`. -/
def fmtEntry (e : String × Json) : String := e.1 ++ " " ++ pyFStr e.2

/-- The body of `parse_package_json` after `json.loads`: read the
`dependencies` then `devDependencies` sections (defaulting to `{}`) and
emit `"name version"` strings in insertion order. -/
def parse_package_json_data : Json → Except PyErr (List String)
  | .obj kvs => do
      let d ← sectionItems (pyGet kvs "dependencies")
      let v ← sectionItems (pyGet kvs "devDependencies")
      .ok (d.map fmtEntry ++ v.map fmtEntry)
  | _ => .error .attributeError

/-! ## Diff engine (`sorted(documented - actual)`) -/

/-- `sorted(documented - actual)`: the `missing` list of the report and the
JSON summary. -/
def missingList (documented actual : Finset String) : List String :=
  (documented \ actual).sort (· ≤ ·)

/-- `sorted(actual - documented)`: the `undocumented` (`extra`) list. -/
def undocumentedList (documented actual : Finset String) : List String :=
  (actual \ documented).sort (· ≤ ·)

/-! ## Markdown report (`generate_report`) -/

/-- `compute_counts` applied to a Python set; the set is iterated in
sorted order (the counts read from the result do not depend on the
iteration order). -/
def computeCountsOfSet (s : Finset String) : List (String × Nat) :=
  compute_counts (s.sort (· ≤ ·))

/-- `OWNER_MAP.get(path.split("/")[1], "Unassigned")`: `none` models the
`IndexError` raised when the path has no second segment. -/
def pyOwnerOf (p : String) : Option String :=
  match pathParts p with
  | _ :: seg :: _ => some (ownerMapGetD seg)
  | _ => none

/-- The text of one table row, `f"| {path} | {owner} | {priority} |"`. -/
def fileRowStr (p o priority : String) : String :=
  "| " ++ p ++ " | " ++ o ++ " | " ++ priority ++ " |"

/-- One table row, failing if the owner lookup raises. -/
def fileRow (priority p : String) : Option String :=
  (pyOwnerOf p).map (fun o => fileRowStr p o priority)

/-- `Option`-valued `map` over a list that aborts on the first failure,
modelling a Python loop that can raise. -/
def optMapM (f : α → Option β) : List α → Option (List β)
  | [] => some []
  | a :: l => do
      let b ← f a
      let bs ← optMapM f l
      some (b :: bs)

/-- The lines of one file table: header with count, then either the table
(column header, separator, one row per path) or the `"(none)"` marker,
then a blank line. -/
def sectionLines (title : String) (entries : List String) (priority : String) :
    Option (List String) :=
  if entries.isEmpty then some [title, "(none)", ""]
  else do
    let rows ← optMapM (fileRow priority) entries
    some (title :: "| File | Owner | Priority |" :: "| --- | --- | --- |" ::
      rows ++ [""])

/-- The fixed summary header of the report. -/
def summaryHeaderLines (documented actual : Finset String) : List String :=
  let doc_counts := computeCountsOfSet documented
  let act_counts := computeCountsOfSet actual
  ["# Stage 1 Inventory Audit Report", "",
   "Documented files: " ++ decimalRepr documented.card,
   "Documented counts - core: " ++ decimalRepr (countsGet doc_counts "core") ++
     ", GUI: " ++ decimalRepr (countsGet doc_counts "GUI") ++
     ", CLI: " ++ decimalRepr (countsGet doc_counts "cmd"),
   "Actual files: " ++ decimalRepr actual.card,
   "Actual counts - core: " ++ decimalRepr (countsGet act_counts "core") ++
     ", GUI: " ++ decimalRepr (countsGet act_counts "GUI") ++
     ", CLI: " ++ decimalRepr (countsGet act_counts "cmd"),
   ""]

/-- The `## Dependencies` section body: per manifest file a `###` heading,
one `- ` bullet per dependency, and a blank line. -/
def depsLines (deps : List (String × List String)) : List String :=
  deps.flatMap (fun e => ("### " ++ e.1) :: (e.2.map (fun d => "- " ++ d) ++ [""]))

/-- `generate_report`, as the list of lines joined by the final
`"\n".join`; `none` models an uncaught `IndexError` from the owner
lookup. -/
def generate_report_lines (documented actual : Finset String)
    (deps : List (String × List String)) : Option (List String) := do
  let msec ← sectionLines
    ("## Missing Files (" ++ decimalRepr (missingList documented actual).length ++ ")")
    (missingList documented actual) "High"
  let usec ← sectionLines
    ("## Undocumented Files (" ++
      decimalRepr (undocumentedList documented actual).length ++ ")")
    (undocumentedList documented actual) "Review"
  some (summaryHeaderLines documented actual ++ msec ++ usec ++
    "## Dependencies" :: depsLines deps)

/-- `generate_report(documented, actual, deps)`. -/
def generate_report (documented actual : Finset String)
    (deps : List (String × List String)) : Option String :=
  (generate_report_lines documented actual deps).map (String.intercalate "\n")

/-! ## `json.dumps(summary, indent=2)`

The renderer is modelled at the shapes that occur in the summary
dictionary: non-negative integers, strings, arrays of strings, objects
with integer values and objects with string-array values.  String
escaping follows the default `ensure_ascii` encoder: two-character
shortcuts for the common escapes, `\uXXXX` for other control and
non-ASCII characters, and surrogate pairs beyond the basic multilingual
plane. -/

/-- Lower-case hexadecimal digit. -/
def hexDigitChar (d : Nat) : Char :=
  if d < 10 then Char.ofNat (48 + d) else Char.ofNat (87 + d)

/-- The four hex digits of `n < 0x10000` (`"%04x"`). -/
def hex4Chars (n : Nat) : List Char :=
  [hexDigitChar (n / 4096 % 16), hexDigitChar (n / 256 % 16),
   hexDigitChar (n / 16 % 16), hexDigitChar (n % 16)]

/-- JSON escaping of one character, per the `ensure_ascii` encoder. -/
def escapeChar (c : Char) : List Char :=
  if c = '"' then ['\\', '"']
  else if c = '\\' then ['\\', '\\']
  else if c = '\x08' then ['\\', 'b']
  else if c = '\x0c' then ['\\', 'f']
  else if c = '\n' then ['\\', 'n']
  else if c = '\r' then ['\\', 'r']
  else if c = '\t' then ['\\', 't']
  else if c.toNat < 0x20 ∨ 0x7f ≤ c.toNat then
    if c.toNat < 0x10000 then '\\' :: 'u' :: hex4Chars c.toNat
    else
      '\\' :: 'u' :: hex4Chars (0xd800 + (c.toNat - 0x10000) / 0x400) ++
        '\\' :: 'u' :: hex4Chars (0xdc00 + (c.toNat - 0x10000) % 0x400)
  else [c]

/-- A rendered JSON string literal. -/
def jstrChars (s : String) : List Char :=
  '"' :: s.toList.flatMap escapeChar ++ ['"']

/-- A rendered JSON integer. -/
def jnatChars (n : Nat) : List Char := (decimalRepr n).toList

/-- The `indent=2` prefix at nesting level `lvl`. -/
def indentChars (lvl : Nat) : List Char := List.replicate (2 * lvl) ' '

/-- The `",\n"`-joined, indented items of a non-empty array. -/
def arrItems (renderV : α → List Char) (lvl : Nat) : List α → List Char
  | [] => []
  | [x] => indentChars lvl ++ renderV x
  | x :: y :: rest =>
      indentChars lvl ++ renderV x ++ ',' :: '\n' :: arrItems renderV lvl (y :: rest)

/-- A rendered JSON array at nesting level `lvl`. -/
def jArrChars (renderV : α → List Char) (xs : List α) (lvl : Nat) : List Char :=
  match xs with
  | [] => ['[', ']']
  | _ => '[' :: '\n' :: arrItems renderV (lvl + 1) xs ++ '\n' :: indentChars lvl ++ [']']

/-- The `",\n"`-joined, indented `"key": value` items of a non-empty
object. -/
def objItems (renderV : α → List Char) (lvl : Nat) : List (String × α) → List Char
  | [] => []
  | [e] => indentChars lvl ++ jstrChars e.1 ++ ':' :: ' ' :: renderV e.2
  | e :: e2 :: rest =>
      indentChars lvl ++ jstrChars e.1 ++ ':' :: ' ' :: renderV e.2 ++
        ',' :: '\n' :: objItems renderV lvl (e2 :: rest)

/-- A rendered JSON object at nesting level `lvl`. -/
def jObjChars (renderV : α → List Char) (kvs : List (String × α)) (lvl : Nat) :
    List Char :=
  match kvs with
  | [] => ['\x7b', '\x7d']
  | _ => '\x7b' :: '\n' :: objItems renderV (lvl + 1) kvs ++
      '\n' :: indentChars lvl ++ ['\x7d']

/-- The value shapes of the summary dictionary. -/
inductive SVal where
  | num (n : Nat)
  | counts (kvs : List (String × Nat))
  | strs (xs : List String)
  | deps (kvs : List (String × List String))

/-- Rendering of one summary value (the top-level object sits at level 0,
so its values render at level 1). -/
def renderSVal : SVal → List Char
  | .num n => jnatChars n
  | .counts kvs => jObjChars jnatChars kvs 1
  | .strs xs => jArrChars jstrChars xs 1
  | .deps kvs => jObjChars (fun v => jArrChars jstrChars v 2) kvs 1

/-- The JSON value of one summary entry. -/
def svalToJson : SVal → Json
  | .num n => .num n
  | .counts kvs => .obj (kvs.map (fun e => (e.1, Json.num e.2)))
  | .strs xs => .arr (xs.map Json.str)
  | .deps kvs => .obj (kvs.map (fun e => (e.1, Json.arr (e.2.map Json.str))))

/-- The key/value pairs of `generate_json_summary`, in the insertion
order of the Python dict literal. -/
def summaryPairs (documented actual : Finset String)
    (deps : List (String × List String)) : List (String × SVal) :=
  [("documented_total", .num documented.card),
   ("actual_total", .num actual.card),
   ("documented_counts", .counts (computeCountsOfSet documented)),
   ("actual_counts", .counts (computeCountsOfSet actual)),
   ("missing", .strs (missingList documented actual)),
   ("undocumented", .strs (undocumentedList documented actual)),
   ("dependencies", .deps deps)]

/-- `generate_json_summary(documented, actual, deps)`: the machine
readable summary as a JSON object. -/
def generate_json_summary (documented actual : Finset String)
    (deps : List (String × List String)) : Json :=
  Json.obj ((summaryPairs documented actual deps).map (fun e => (e.1, svalToJson e.2)))

/-- `json.dumps(summary, indent=2)`, the text written by `main`. -/
def json_dumps_summary (documented actual : Finset String)
    (deps : List (String × List String)) : String :=
  String.mk (jObjChars renderSVal (summaryPairs documented actual deps) 0)

/-! ## `json.loads`

A recursive-descent parser for the JSON grammar the script exchanges:
strings with full escape decoding, non-negative integer literals, arrays,
objects (key/value pairs kept in file order), `true`/`false`/`null`, and
the four JSON whitespace characters.  Recursion is bounded by explicit
fuel; `json_loads` supplies one unit of fuel per input character, which
the correctness lemmas show is enough. -/

/-- The four whitespace characters of the JSON grammar. -/
def isJsonWs (c : Char) : Bool := c = ' ' || c = '\t' || c = '\n' || c = '\r'

/-- Skip JSON whitespace. -/
def skipWs (cs : List Char) : List Char := cs.dropWhile isJsonWs

/-- The value of one hexadecimal digit. -/
def hexVal (c : Char) : Option Nat :=
  if '0' ≤ c ∧ c ≤ '9' then some (c.toNat - 48)
  else if 'a' ≤ c ∧ c ≤ 'f' then some (c.toNat - 87)
  else if 'A' ≤ c ∧ c ≤ 'F' then some (c.toNat - 55)
  else none

/-- The character of a two-character escape. -/
def escDecode (c : Char) : Option Char :=
  if c = '"' then some '"'
  else if c = '\\' then some '\\'
  else if c = '/' then some '/'
  else if c = 'b' then some '\x08'
  else if c = 'f' then some '\x0c'
  else if c = 'n' then some '\n'
  else if c = 'r' then some '\r'
  else if c = 't' then some '\t'
  else none

/-- The value of a four-digit hex escape. -/
def hex4Val (a b c d : Char) : Option Nat := do
  let x ← hexVal a
  let y ← hexVal b
  let z ← hexVal c
  let w ← hexVal d
  some (((x * 16 + y) * 16 + z) * 16 + w)

/-- Decode one escape sequence after a backslash: a two-character escape,
or a `\uXXXX` escape with surrogate-pair combination.  Returns the decoded
character and the remaining input.  Lone surrogates are rejected (they
have no scalar-value representation). -/
def decodeOne : List Char → Option (Char × List Char)
  | [] => none
  | e :: cs2 =>
    if e = 'u' then
      match cs2 with
      | a :: b :: c3 :: d :: cs3 =>
        match hex4Val a b c3 d with
        | none => none
        | some n =>
          if 0xd800 ≤ n ∧ n < 0xdc00 then
            match cs3 with
            | s1 :: s2 :: a2 :: b2 :: c2 :: d2 :: cs4 =>
              if s1 = '\\' ∧ s2 = 'u' then
                match hex4Val a2 b2 c2 d2 with
                | none => none
                | some m =>
                  if 0xdc00 ≤ m ∧ m < 0xe000 then
                    some (Char.ofNat
                      (0x10000 + (n - 0xd800) * 0x400 + (m - 0xdc00)), cs4)
                  else none
              else none
            | _ => none
          else if 0xdc00 ≤ n ∧ n < 0xe000 then none
          else some (Char.ofNat n, cs3)
      | _ => none
    else
      match escDecode e with
      | none => none
      | some ch => some (ch, cs2)

/-- Parse a JSON string body after the opening quote: plain characters up
to the closing quote, backslash escapes via `decodeOne`, rejecting
unescaped control characters.  The fuel dominates the number of source
characters; one unit per input character is always enough. -/
def parseStringBody : Nat → List Char → Option (List Char × List Char)
  | 0, _ => none
  | _ + 1, [] => none
  | fuel + 1, c :: cs =>
    if c = '"' then some ([], cs)
    else if c = '\\' then
      match decodeOne cs with
      | none => none
      | some (ch, cs2) =>
        match parseStringBody fuel cs2 with
        | some (content, rest) => some (ch :: content, rest)
        | none => none
    else if c.toNat < 0x20 then none
    else
      match parseStringBody fuel cs with
      | some (content, rest) => some (c :: content, rest)
      | none => none

/-- The numeric value of a run of decimal digits. -/
def natFromDigits (ds : List Char) : Nat :=
  ds.foldl (fun a c => a * 10 + (c.toNat - 48)) 0

/-- The parser's three productions: a value, the items of a non-empty
array after its `[`, and the items of a non-empty object after its
opening brace. -/
inductive PMode where
  | value
  | arrTail
  | objTail

/-- Fueled recursive-descent parsing.  `.arrTail`/`.objTail` return the
collected `.arr`/`.obj` value. -/
def parseF : Nat → PMode → List Char → Option (Json × List Char)
  | 0, _, _ => none
  | fuel + 1, .value, cs =>
    match skipWs cs with
    | [] => none
    | c :: cs' =>
      if c = '"' then
        match parseStringBody (cs'.length + 1) cs' with
        | some (content, rest) => some (.str (String.mk content), rest)
        | none => none
      else if c = '[' then
        match skipWs cs' with
        | [] => none
        | d :: rest => if d = ']' then some (.arr [], rest) else parseF fuel .arrTail cs'
      else if c = '\x7b' then
        match skipWs cs' with
        | [] => none
        | d :: rest =>
          if d = '\x7d' then some (.obj [], rest) else parseF fuel .objTail cs'
      else if c.isDigit then
        some (.num (natFromDigits ((c :: cs').takeWhile Char.isDigit)),
          (c :: cs').dropWhile Char.isDigit)
      else if List.isPrefixOf "true".toList (c :: cs') then
        some (.bool true, (c :: cs').drop 4)
      else if List.isPrefixOf "false".toList (c :: cs') then
        some (.bool false, (c :: cs').drop 5)
      else if List.isPrefixOf "null".toList (c :: cs') then
        some (.null, (c :: cs').drop 4)
      else none
  | fuel + 1, .arrTail, cs =>
    match parseF fuel .value cs with
    | some (v, r) =>
      match skipWs r with
      | [] => none
      | d :: r2 =>
        if d = ',' then
          match parseF fuel .arrTail r2 with
          | some (.arr vs, r3) => some (.arr (v :: vs), r3)
          | _ => none
        else if d = ']' then some (.arr [v], r2)
        else none
    | none => none
  | fuel + 1, .objTail, cs =>
    match skipWs cs with
    | [] => none
    | c :: cs' =>
      if c = '"' then
        match parseStringBody (cs'.length + 1) cs' with
        | some (key, r) =>
          match skipWs r with
          | [] => none
          | d :: r2 =>
            if d = ':' then
              match parseF fuel .value r2 with
              | some (v, r3) =>
                match skipWs r3 with
                | [] => none
                | d2 :: r4 =>
                  if d2 = ',' then
                    match parseF fuel .objTail r4 with
                    | some (.obj kvs, r5) =>
                      some (.obj ((String.mk key, v) :: kvs), r5)
                    | _ => none
                  else if d2 = '\x7d' then some (.obj [(String.mk key, v)], r4)
                  else none
              | none => none
            else none
        | none => none
      else none

/-- `l` does not start with a character satisfying `p` (used to delimit
greedy tokens such as digit runs). -/
def noLead (p : Char → Bool) : List Char → Prop
  | [] => True
  | c :: _ => p c = false

/-- A rendered value starts with a visible character that cannot be
mistaken for a closing bracket (used when dispatching after `[`). -/
def startOk : List Char → Prop
  | [] => False
  | c :: _ => isJsonWs c = false ∧ c ≠ ']'

/-- Fuel sufficient for parsing the items of a rendered array: one unit
per element plus the value's own need. -/
def arrTailNeed (needV : α → Nat) : List α → Nat
  | [] => 0
  | x :: xs => needV x + 1 + arrTailNeed needV xs

/-- Fuel sufficient for parsing the items of a rendered object. -/
def objTailNeed (needV : α → Nat) : List (String × α) → Nat
  | [] => 0
  | e :: kvs => needV e.2 + 1 + objTailNeed needV kvs

/-- Fuel sufficient for parsing one rendered summary value. -/
def svalNeed : SVal → Nat
  | .num _ => 1
  | .counts kvs => objTailNeed (fun _ => 1) kvs + 1
  | .strs xs => arrTailNeed (fun _ => 1) xs + 1
  | .deps kvs => objTailNeed (fun v => arrTailNeed (fun _ => 1) v + 1) kvs + 1

/-- `json.loads(text)`: parse one value, allow trailing whitespace only. -/
def json_loads (s : String) : Option Json :=
  match parseF (s.toList.length + 1) .value s.toList with
  | some (j, rest) => if (skipWs rest).isEmpty then some j else none
  | none => none

/-- Field access on a parsed JSON object (`summary["key"]`). -/
def jsonObjLookup : Json → String → Option Json
  | .obj kvs, k => kvs.lookup k
  | _, _ => none

/-- `parse_package_json(path)` as a function of the file's text:
`json.loads` then the section reads.  A `loads` failure is a
`JSONDecodeError`; `.get`/`.items()` on a non-object raises
`AttributeError`. -/
def parse_package_json (text : String) : Except PyErr (List String) :=
  match json_loads text with
  | none => .error .jsonDecodeError
  | some data => parse_package_json_data data

end InventoryAudit

namespace InventoryAudit

/-! ## Supporting lemmas -/

theorem bumpCount_lookup_self (counts : List (String × Nat)) (k : String) :
    countsGet (bumpCount counts k) k = countsGet counts k + 1 := by
  induction counts with
  | nil => simp [bumpCount, countsGet]
  | cons hd tl ih =>
    obtain ⟨k', v⟩ := hd
    by_cases h : k' = k
    · subst h
      simp [bumpCount, countsGet, List.lookup]
    · have hne : (k == k') = false := beq_eq_false_iff_ne.mpr (fun e => h e.symm)
      simp only [bumpCount, if_neg h, countsGet, List.lookup, hne]
      exact ih

theorem bumpCount_lookup_other (counts : List (String × Nat)) (k k' : String)
    (h : k ≠ k') : countsGet (bumpCount counts k) k' = countsGet counts k' := by
  have hne : (k' == k) = false := beq_eq_false_iff_ne.mpr (fun e => h e.symm)
  induction counts with
  | nil =>
    simp [bumpCount, countsGet, List.lookup, hne]
  | cons hd tl ih =>
    obtain ⟨k0, v⟩ := hd
    by_cases h0 : k0 = k
    · subst h0
      simp [bumpCount, countsGet, List.lookup, hne]
    · simp only [bumpCount, if_neg h0, countsGet, List.lookup]
      cases hk : k' == k0 <;> simp_all [countsGet, List.lookup]

theorem bumpCount_all (acc : List (String × Nat)) (k : String)
    (P : String → Bool) (hk : P k = true)
    (hacc : acc.all (fun e => P e.1) = true) :
    (bumpCount acc k).all (fun e => P e.1) = true := by
  induction acc with
  | nil => simpa [bumpCount] using hk
  | cons hd tl ih =>
    obtain ⟨k0, v⟩ := hd
    simp only [List.all_cons, Bool.and_eq_true] at hacc
    by_cases h0 : k0 = k
    · subst h0
      simp [bumpCount, hacc.1, hacc.2]
    · simp [bumpCount, if_neg h0, hacc.1, ih hacc.2]

theorem countStep_eq (counts : List (String × Nat)) (p : String) :
    countStep counts p =
      match pathParts p with
      | _ :: seg :: _ => if inOwnerMap seg then bumpCount counts seg else counts
      | _ => counts := by
  unfold countStep
  rcases pathParts p with _ | ⟨a, _ | ⟨b, t⟩⟩ <;> simp

theorem secondSeg_eq_cases (p : String) :
    (∀ a b t, pathParts p = a :: b :: t → secondSeg p = some b) ∧
      (∀ a, pathParts p = [a] → secondSeg p = none) ∧
      (pathParts p = [] → secondSeg p = none) := by
  refine ⟨fun a b t h => ?_, fun a h => ?_, fun h => ?_⟩ <;> simp [secondSeg, h]

theorem countsGet_foldl (ps : List String) (acc : List (String × Nat)) (k : String) :
    countsGet (List.foldl countStep acc ps) k =
      countsGet acc k +
        (if inOwnerMap k then ps.countP (fun q => secondSeg q == some k) else 0) := by
  induction ps generalizing acc with
  | nil => simp
  | cons p ps ih =>
    rw [List.foldl_cons, ih, List.countP_cons, countStep_eq]
    rcases hpp : pathParts p with _ | ⟨a, _ | ⟨b, t⟩⟩
    · simp [secondSeg, hpp]
    · simp [secondSeg, hpp]
    · have hseg : secondSeg p = some b := by simp [secondSeg, hpp]
      by_cases hb : inOwnerMap b
      · by_cases hbk : b = k
        · subst hbk
          simp [hb, hseg, bumpCount_lookup_self]
          omega
        · have : (secondSeg p == some k) = false := by
            simp [hseg, Option.some.injEq, hbk]
          simp [hb, this, bumpCount_lookup_other acc b k hbk]
      · by_cases hk : inOwnerMap k
        · have hbk : b ≠ k := fun e => hb (e ▸ hk)
          have : (secondSeg p == some k) = false := by
            simp [hseg, Option.some.injEq, hbk]
          simp [hb, this]
        · simp [hb, hk]

theorem compute_counts_get (paths : List String) (k : String) :
    countsGet (compute_counts paths) k =
      if inOwnerMap k then paths.countP (fun q => secondSeg q == some k) else 0 := by
  simpa [countsGet] using countsGet_foldl paths [] k

theorem compute_counts_keys (paths : List String) :
    (compute_counts paths).all (fun e => inOwnerMap e.1) = true := by
  suffices h : ∀ acc, acc.all (fun e => inOwnerMap e.1) = true →
      (List.foldl countStep acc paths).all (fun e => inOwnerMap e.1) = true by
    exact h [] (by simp)
  induction paths with
  | nil => intro acc hacc; simpa using hacc
  | cons p ps ih =>
    intro acc hacc
    rw [List.foldl_cons]
    refine ih _ ?_
    rw [countStep_eq]
    rcases pathParts p with _ | ⟨a, _ | ⟨b, t⟩⟩
    · exact hacc
    · exact hacc
    · by_cases hb : inOwnerMap b
      · simpa [hb] using bumpCount_all acc b _ hb hacc
      · simpa [hb] using hacc

theorem pySplit_ne_nil (sep : Char) (cs : List Char) : pySplit sep cs ≠ [] := by
  cases cs with
  | nil => simp [pySplit]
  | cons c cs =>
    simp only [pySplit]
    rcases h : pySplit sep cs with _ | ⟨p, ps⟩
    · simp
    · by_cases hc : c = sep <;> simp [hc]

theorem pySplit_no_sep (sep : Char) (cs : List Char) (h : sep ∉ cs) :
    pySplit sep cs = [cs] := by
  induction cs with
  | nil => rfl
  | cons c cs ih =>
    have hc : c ≠ sep := fun e => h (e ▸ List.mem_cons_self c cs)
    have h' : sep ∉ cs := fun m => h (List.mem_cons_of_mem c m)
    rw [pySplit, ih h']
    simp [hc]

theorem mk_toList (s : String) : String.mk s.toList = s := rfl

theorem pathParts_no_slash (p : String) (h : p.toList.contains '/' = false) :
    pathParts p = [p] := by
  have h' : '/' ∉ p.toList := by simpa using h
  unfold pathParts
  rw [pySplit_no_sep '/' p.toList h']
  simp [mk_toList]

theorem takePathChars_spec (cs : List Char) :
    (takePathChars cs).1 ++ (takePathChars cs).2 = cs ∧
      (takePathChars cs).1.all isPathChar = true := by
  induction cs with
  | nil => simp [takePathChars]
  | cons c cs ih =>
    by_cases hc : isPathChar c
    · simp [takePathChars, hc, ih.1, ih.2]
    · simp [takePathChars, hc]

theorem tryMatch_sound (cs m r : List Char) (h : tryMatch cs = some (m, r)) :
    (∃ t : List Char, m = filePrefix ++ t ∧ t ≠ [] ∧ t.all isPathChar = true) ∧
      m ++ r = cs := by
  unfold tryMatch at h
  by_cases hp : filePrefix.isPrefixOf cs
  · rw [if_pos hp] at h
    obtain ⟨rest, hrest⟩ := (List.isPrefixOf_iff_prefix.mp hp)
    have hdrop : cs.drop filePrefix.length = rest := by
      rw [← hrest, List.drop_left]
    rw [hdrop] at h
    obtain ⟨hsplit, hall⟩ := takePathChars_spec rest
    rcases ht : takePathChars rest with ⟨t, r'⟩
    rw [ht] at h hsplit hall
    cases t with
    | nil => simp at h
    | cons c t' =>
      simp only at h
      obtain ⟨hm, hr⟩ := Prod.mk.injEq .. ▸ (Option.some.injEq .. ▸ h)
      refine ⟨⟨c :: t', hm.symm, by simp, hall⟩, ?_⟩
      rw [← hm, ← hr] at *
      rw [List.append_assoc, hsplit, hrest]
  · rw [if_neg hp] at h
    exact absurd h (by simp)

theorem findallGo_sound (fuel : Nat) :
    ∀ cs x, x ∈ findallGo fuel cs →
      ∃ t : List Char, x = String.mk (filePrefix ++ t) ∧ t ≠ [] ∧
        t.all isPathChar = true := by
  induction fuel with
  | zero => intro cs x hx; simp [findallGo] at hx
  | succ fuel ih =>
    intro cs x hx
    cases cs with
    | nil => simp [findallGo] at hx
    | cons c cs =>
      rw [findallGo] at hx
      rcases htm : tryMatch (c :: cs) with _ | ⟨m, r⟩
      · rw [htm] at hx
        exact ih cs x hx
      · rw [htm] at hx
        rcases List.mem_cons.mp hx with hx | hx
        · obtain ⟨⟨t, hm, ht, hall⟩, _⟩ := tryMatch_sound _ _ _ htm
          exact ⟨t, by rw [hx, hm], ht, hall⟩
        · exact ih r x hx

theorem findall_sound (line x : String) (h : x ∈ findall line) :
    ∃ t : List Char, x = String.mk (filePrefix ++ t) ∧ t ≠ [] ∧
      t.all isPathChar = true :=
  findallGo_sound _ _ x h

theorem docFilesInnerFold (ms : List String) (files : Finset String) (x : String) :
    (x ∈ ms.foldl
        (fun files m => if m ∈ EXCLUDED_ROOTS then files else insert m files)
        files) ↔
      (x ∈ ms ∧ x ∉ EXCLUDED_ROOTS) ∨ x ∈ files := by
  induction ms generalizing files with
  | nil => simp
  | cons m ms ih =>
    rw [List.foldl_cons, ih]
    by_cases hm : m ∈ EXCLUDED_ROOTS
    · simp only [if_pos hm]
      constructor
      · rintro (⟨h1, h2⟩ | h) <;> [exact Or.inl ⟨List.mem_cons_of_mem m h1, h2⟩;
          exact Or.inr h]
      · rintro (⟨h1, h2⟩ | h)
        · rcases List.mem_cons.mp h1 with rfl | h1
          · exact absurd hm h2
          · exact Or.inl ⟨h1, h2⟩
        · exact Or.inr h
    · simp only [if_neg hm, Finset.mem_insert]
      constructor
      · rintro (⟨h1, h2⟩ | hxm | h)
        · exact Or.inl ⟨List.mem_cons_of_mem m h1, h2⟩
        · subst hxm
          exact Or.inl ⟨List.mem_cons_self _ _, hm⟩
        · exact Or.inr h
      · rintro (⟨h1, h2⟩ | h)
        · rcases List.mem_cons.mp h1 with rfl | h1
          · exact Or.inr (Or.inl rfl)
          · exact Or.inl ⟨h1, h2⟩
        · exact Or.inr (Or.inr h)

theorem docFilesOuterFold (docLines : List String) (acc : Finset String) (x : String) :
    (x ∈ docLines.foldl
        (fun files line =>
          (findall line).foldl
            (fun files m => if m ∈ EXCLUDED_ROOTS then files else insert m files)
            files)
        acc) ↔
      (∃ l ∈ docLines, x ∈ findall l ∧ x ∉ EXCLUDED_ROOTS) ∨ x ∈ acc := by
  induction docLines generalizing acc with
  | nil => simp
  | cons line rest ih =>
    rw [List.foldl_cons, ih, docFilesInnerFold]
    constructor
    · rintro (⟨l, hl, hx, he⟩ | ⟨hx, he⟩ | h)
      · exact Or.inl ⟨l, List.mem_cons_of_mem line hl, hx, he⟩
      · exact Or.inl ⟨line, List.mem_cons_self line rest, hx, he⟩
      · exact Or.inr h
    · rintro (⟨l, hl, hx, he⟩ | h)
      · rcases List.mem_cons.mp hl with rfl | hl
        · exact Or.inr (Or.inl ⟨hx, he⟩)
        · exact Or.inl ⟨l, hl, hx, he⟩
      · exact Or.inr (Or.inr h)

theorem parse_documented_files_mem (docLines : List String) (x : String) :
    x ∈ parse_documented_files docLines ↔
      (∃ l ∈ docLines, x ∈ findall l) ∧ x ∉ EXCLUDED_ROOTS := by
  unfold parse_documented_files
  rw [docFilesOuterFold]
  constructor
  · rintro (⟨l, hl, hx, he⟩ | h)
    · exact ⟨⟨l, hl, hx⟩, he⟩
    · simp at h
  · rintro ⟨⟨l, hl, hx⟩, he⟩
    exact Or.inl ⟨l, hl, hx, he⟩

theorem goMod_fold_spec (lines : List String) :
    ∀ (deps : List String) (inreq : Bool),
      (lines.foldl goModStep (deps, inreq)).1 = deps ++ goModSpecScan inreq lines := by
  induction lines with
  | nil => intro deps inreq; simp [goModSpecScan]
  | cons l ls ih =>
    intro deps inreq
    rw [List.foldl_cons]
    by_cases h1 : pyStartsWith (pyStrip l) "require ("
    · simp only [goModStep, goModSpecScan, h1, if_true]
      exact ih deps true
    · cases inreq with
      | false =>
        by_cases h4 : (pyStartsWith (pyStrip l) "require "
            && !pyEndsWith (pyStrip l) "(") = true
        · simp only [goModStep, goModSpecScan, h1, if_false, Bool.false_and,
            Bool.if_false_left, Bool.and_eq_true, h4, if_true, ite_false]
          rw [ih]
          simp
        · simp only [goModStep, goModSpecScan, h1, if_false, Bool.false_and,
            Bool.if_false_left, h4, ite_false]
          simpa using ih deps false
      | true =>
        by_cases h3 : (pyStrip l == ")") = true
        · simp only [goModStep, goModSpecScan, h1, if_false, Bool.true_and,
            h3, if_true, ite_false, ite_true]
          exact ih deps false
        · by_cases h5 : (pyStrip l != "") = true
          · simp only [goModStep, goModSpecScan, h1, if_false, Bool.true_and,
              h3, h5, if_true, ite_false, ite_true]
            rw [ih]
            simp
          · have h5' : (pyStrip l != "") = false := by
              cases hb : (pyStrip l != "") with
              | false => rfl
              | true => exact absurd hb h5
            have he : pyStrip l = "" := by
              simpa using h5'
            have h6' : pyStartsWith (pyStrip l) "require " = false := by
              rw [he]; decide
            simp only [goModStep, goModSpecScan, h1, if_false, Bool.true_and,
              h3, h5', h6', Bool.false_and, ite_false, Bool.false_eq_true]
            exact ih deps true

theorem optMapM_mem {α β : Type} (f : α → Option β) :
    ∀ (l : List α) (out : List β), optMapM f l = some out →
      ∀ a ∈ l, ∃ b, f a = some b ∧ b ∈ out := by
  intro l
  induction l with
  | nil => intro out _ a ha; simp at ha
  | cons x l ih =>
    intro out hout a ha
    rw [optMapM] at hout
    cases hfx : f x with
    | none => rw [hfx] at hout; simp at hout
    | some b =>
      rw [hfx] at hout
      cases hrec : optMapM f l with
      | none => rw [hrec] at hout; simp at hout
      | some bs =>
        rw [hrec] at hout
        simp only [Option.bind_eq_bind, Option.some_bind] at hout
        obtain rfl : b :: bs = out := by simpa using hout
        rcases List.mem_cons.mp ha with rfl | ha
        · exact ⟨b, hfx, List.mem_cons_self _ _⟩
        · obtain ⟨b', hb', hmem⟩ := ih bs hrec a ha
          exact ⟨b', hb', List.mem_cons_of_mem _ hmem⟩

theorem pyOwnerOf_secondSeg (p : String) :
    pyOwnerOf p = (secondSeg p).map ownerMapGetD := by
  unfold pyOwnerOf secondSeg
  rcases pathParts p with _ | ⟨a, _ | ⟨b, t⟩⟩ <;> simp

theorem sectionLines_rows (title : String) (entries : List String)
    (priority : String) (out : List String)
    (hout : sectionLines title entries priority = some out) :
    ∀ p ∈ entries, ∃ seg, secondSeg p = some seg ∧
      fileRowStr p (ownerMapGetD seg) priority ∈ out := by
  intro p hp
  unfold sectionLines at hout
  have hne : entries.isEmpty = false := by
    cases entries with
    | nil => simp at hp
    | cons a l => rfl
  rw [hne] at hout
  simp only [Bool.false_eq_true, if_false] at hout
  cases hrows : optMapM (fileRow priority) entries with
  | none => rw [hrows] at hout; simp at hout
  | some rows =>
    rw [hrows] at hout
    simp only [Option.bind_eq_bind, Option.some_bind, Option.some.injEq] at hout
    obtain ⟨r, hr, hmem⟩ := optMapM_mem (fileRow priority) entries rows hrows p hp
    unfold fileRow at hr
    rw [pyOwnerOf_secondSeg] at hr
    cases hseg : secondSeg p with
    | none => rw [hseg] at hr; simp at hr
    | some seg =>
      rw [hseg] at hr
      simp only [Option.map_some', Option.some.injEq] at hr
      refine ⟨seg, rfl, ?_⟩
      rw [← hout, hr]
      exact List.mem_cons_of_mem _ (List.mem_cons_of_mem _
        (List.mem_cons_of_mem _ (List.mem_append_left _ hmem)))

/-! ### Character and whitespace facts -/

theorem char_valid_nat (c : Char) :
    c.toNat < 0xd800 ∨ (0xdfff < c.toNat ∧ c.toNat < 0x110000) := by
  rcases c.valid with h | ⟨h1, h2⟩
  · exact Or.inl h
  · exact Or.inr ⟨h1, h2⟩

theorem toNat_ofNat_valid (n : Nat) (h : Nat.isValidChar n) :
    (Char.ofNat n).toNat = n := by
  rw [Char.ofNat, dif_pos h]
  simp [Char.ofNatAux, Char.toNat, UInt32.ofNat', UInt32.toNat, BitVec.toNat_ofNatLt]

theorem hexVal_hexDigitChar (d : Nat) (h : d < 16) :
    hexVal (hexDigitChar d) = some d := by
  interval_cases d <;> decide

theorem hex4Val_round (n : Nat) (h : n < 0x10000) :
    hex4Val (hexDigitChar (n / 4096 % 16)) (hexDigitChar (n / 256 % 16))
      (hexDigitChar (n / 16 % 16)) (hexDigitChar (n % 16)) = some n := by
  rw [hex4Val, hexVal_hexDigitChar _ (by omega), hexVal_hexDigitChar _ (by omega),
    hexVal_hexDigitChar _ (by omega), hexVal_hexDigitChar _ (by omega)]
  show some ((((n / 4096 % 16) * 16 + n / 256 % 16) * 16 + n / 16 % 16) * 16 + n % 16) = some n
  congr 1
  omega

theorem skipWs_cons_ws (c : Char) (l : List Char) (h : isJsonWs c = true) :
    skipWs (c :: l) = skipWs l := by
  simp [skipWs, List.dropWhile_cons, h]

theorem skipWs_cons_not_ws (c : Char) (l : List Char) (h : isJsonWs c = false) :
    skipWs (c :: l) = c :: l := by
  simp [skipWs, List.dropWhile_cons, h]

theorem skipWs_replicate_space (k : Nat) (l : List Char) :
    skipWs (List.replicate k ' ' ++ l) = skipWs l := by
  induction k with
  | zero => simp
  | succ k ih =>
    rw [List.replicate_succ, List.cons_append, skipWs_cons_ws _ _ (by decide)]
    exact ih

theorem skipWs_indent (lvl : Nat) (l : List Char) :
    skipWs (indentChars lvl ++ l) = skipWs l :=
  skipWs_replicate_space (2 * lvl) l

theorem parseF_value_congr (fuel : Nat) (cs₁ cs₂ : List Char)
    (h : skipWs cs₁ = skipWs cs₂) :
    parseF fuel .value cs₁ = parseF fuel .value cs₂ := by
  cases fuel with
  | zero => rfl
  | succ fuel => rw [parseF, parseF, h]

/-! ### Decimal rendering and parsing -/

theorem natDigitsRev_eq_digits (fuel : Nat) :
    ∀ n, n ≤ fuel → natDigitsRev fuel n = Nat.digits 10 n := by
  induction fuel with
  | zero =>
    intro n hn
    obtain rfl : n = 0 := by omega
    simp [natDigitsRev]
  | succ fuel ih =>
    intro n hn
    cases n with
    | zero => simp [natDigitsRev]
    | succ m =>
      rw [natDigitsRev, Nat.digits_def' (by norm_num : (1:Nat) < 10) (Nat.succ_pos m)]
      rw [ih ((m + 1) / 10) (by omega)]

theorem decimalDigitChar_toNat (d : Nat) (h : d < 10) :
    (decimalDigitChar d).toNat = 48 + d :=
  toNat_ofNat_valid (48 + d) (Or.inl (by omega))

theorem decimalDigitChar_isDigit (d : Nat) (h : d < 10) :
    (decimalDigitChar d).isDigit = true := by
  interval_cases d <;> decide

theorem jnatChars_all_digits (n : Nat) :
    ∀ c ∈ jnatChars n, c.isDigit = true := by
  intro c hc
  unfold jnatChars decimalRepr at hc
  by_cases h0 : n = 0
  · rw [if_pos h0] at hc
    obtain rfl : c = '0' := by simpa using hc
    decide
  · rw [if_neg h0] at hc
    simp only [String.toList] at hc
    obtain ⟨d, hd, rfl⟩ := List.mem_map.mp hc
    rw [natDigitsRev_eq_digits n n le_rfl] at hd
    exact decimalDigitChar_isDigit d
      (Nat.digits_lt_base (by norm_num) (List.mem_reverse.mp hd))

theorem jnatChars_ne_nil (n : Nat) : jnatChars n ≠ [] := by
  unfold jnatChars decimalRepr
  by_cases h0 : n = 0
  · rw [if_pos h0]
    decide
  · rw [if_neg h0]
    intro h
    have hd : natDigitsRev n n = Nat.digits 10 n := natDigitsRev_eq_digits n n le_rfl
    have : ((natDigitsRev n n).reverse).map decimalDigitChar = [] := by
      simpa [String.toList] using h
    rw [hd] at this
    simp only [List.map_eq_nil_iff, List.reverse_eq_nil_iff] at this
    exact h0 (Nat.digits_eq_nil_iff_eq_zero.mp this)

theorem natFromDigits_foldl (ds : List Nat) (h : ∀ d ∈ ds, d < 10) :
    ∀ acc, List.foldl (fun a c => a * 10 + (c.toNat - 48)) acc
        (ds.map decimalDigitChar) =
      acc * 10 ^ ds.length + Nat.ofDigits 10 ds.reverse := by
  induction ds with
  | nil => intro acc; simp
  | cons d ds ih =>
    intro acc
    have hd : d < 10 := h d (List.mem_cons_self _ _)
    rw [List.map_cons, List.foldl_cons, decimalDigitChar_toNat d hd,
      ih (fun x hx => h x (List.mem_cons_of_mem _ hx))]
    rw [List.reverse_cons, Nat.ofDigits_append]
    simp [Nat.pow_succ]
    ring

theorem natFromDigits_jnatChars (n : Nat) : natFromDigits (jnatChars n) = n := by
  unfold natFromDigits jnatChars decimalRepr
  by_cases h0 : n = 0
  · rw [if_pos h0, h0]
    decide
  · rw [if_neg h0]
    have hch : (String.mk (((natDigitsRev n n).reverse).map decimalDigitChar)).toList =
        ((natDigitsRev n n).reverse).map decimalDigitChar := rfl
    rw [hch, natDigitsRev_eq_digits n n le_rfl]
    have hlt : ∀ d ∈ (Nat.digits 10 n).reverse, d < 10 := fun d hd =>
      Nat.digits_lt_base (by norm_num) (List.mem_reverse.mp hd)
    rw [natFromDigits_foldl _ hlt 0]
    simp [Nat.ofDigits_digits]

/-! ### String escaping round trip -/

theorem hex4Chars_eq (x : Nat) : hex4Chars x =
    [hexDigitChar (x / 4096 % 16), hexDigitChar (x / 256 % 16),
     hexDigitChar (x / 16 % 16), hexDigitChar (x % 16)] := rfl

theorem decodeOne_surrogate (n m : Nat) (a b c3 d a2 b2 c2 d2 : Char)
    (tail : List Char)
    (hab : hex4Val a b c3 d = some n) (hab2 : hex4Val a2 b2 c2 d2 = some m)
    (hr1 : 0xd800 ≤ n ∧ n < 0xdc00) (hr2 : 0xdc00 ≤ m ∧ m < 0xe000) :
    decodeOne ('u' :: a :: b :: c3 :: d :: '\\' :: 'u' :: a2 :: b2 :: c2 :: d2 :: tail) =
      some (Char.ofNat (0x10000 + (n - 0xd800) * 0x400 + (m - 0xdc00)), tail) := by
  simp [decodeOne, hab, hab2, hr1, hr2]

theorem parseStringBody_round (l : List Char) :
    ∀ (rest : List Char) (fuel : Nat), l.length + 1 ≤ fuel →
      parseStringBody fuel (l.flatMap escapeChar ++ '"' :: rest) = some (l, rest) := by
  induction l with
  | nil =>
    intro rest fuel hf
    obtain ⟨f, rfl⟩ : ∃ f, fuel = f + 1 := ⟨fuel - 1, by omega⟩
    simp [parseStringBody]
  | cons c l ih =>
    intro rest fuel hf
    obtain ⟨f, rfl⟩ : ∃ f, fuel = f + 1 := ⟨fuel - 1, by omega⟩
    have ih' := ih rest f (by simp at hf; omega)
    rw [List.flatMap_cons, List.append_assoc]
    by_cases h1 : c = '"'
    · subst h1
      rw [show escapeChar '"' = ['\\', '"'] from rfl]
      simp [parseStringBody, decodeOne, escDecode, ih']
    · by_cases h2 : c = '\\'
      · subst h2
        rw [show escapeChar '\\' = ['\\', '\\'] from rfl]
        simp [parseStringBody, decodeOne, escDecode, ih']
      · by_cases h3 : c = '\x08'
        · subst h3
          rw [show escapeChar '\x08' = ['\\', 'b'] from rfl]
          simp [parseStringBody, decodeOne, escDecode, ih']
        · by_cases h4 : c = '\x0c'
          · subst h4
            rw [show escapeChar '\x0c' = ['\\', 'f'] from rfl]
            simp [parseStringBody, decodeOne, escDecode, ih']
          · by_cases h5 : c = '\n'
            · subst h5
              rw [show escapeChar '\n' = ['\\', 'n'] from rfl]
              simp [parseStringBody, decodeOne, escDecode, ih']
            · by_cases h6 : c = '\r'
              · subst h6
                rw [show escapeChar '\r' = ['\\', 'r'] from rfl]
                simp [parseStringBody, decodeOne, escDecode, ih']
              · by_cases h7 : c = '\t'
                · subst h7
                  rw [show escapeChar '\t' = ['\\', 't'] from rfl]
                  simp [parseStringBody, decodeOne, escDecode, ih']
                · by_cases h8 : c.toNat < 0x20 ∨ 0x7f ≤ c.toNat
                  · by_cases h9 : c.toNat < 0x10000
                    · have hesc : escapeChar c = '\\' :: 'u' :: hex4Chars c.toNat := by
                        unfold escapeChar
                        rw [if_neg h1, if_neg h2, if_neg h3, if_neg h4, if_neg h5,
                          if_neg h6, if_neg h7, if_pos h8, if_pos h9]
                      have hval := char_valid_nat c
                      have hns1 : ¬(0xd800 ≤ c.toNat ∧ c.toNat < 0xdc00) := by omega
                      have hns2 : ¬(0xdc00 ≤ c.toNat ∧ c.toNat < 0xe000) := by omega
                      rw [hesc,
                        show hex4Chars c.toNat =
                          [hexDigitChar (c.toNat / 4096 % 16),
                           hexDigitChar (c.toNat / 256 % 16),
                           hexDigitChar (c.toNat / 16 % 16),
                           hexDigitChar (c.toNat % 16)] from rfl]
                      simp [parseStringBody, decodeOne,
                        hex4Val_round c.toNat h9, hns1, hns2, ih']
                    · have hesc : escapeChar c =
                          '\\' :: 'u' :: hex4Chars (0xd800 + (c.toNat - 0x10000) / 0x400) ++
                            '\\' :: 'u' :: hex4Chars (0xdc00 + (c.toNat - 0x10000) % 0x400) := by
                        unfold escapeChar
                        rw [if_neg h1, if_neg h2, if_neg h3, if_neg h4, if_neg h5,
                          if_neg h6, if_neg h7, if_pos h8, if_neg h9]
                      have hval := char_valid_nat c
                      have hhi : 0xd800 + (c.toNat - 0x10000) / 0x400 < 0x10000 := by omega
                      have hlo : 0xdc00 + (c.toNat - 0x10000) % 0x400 < 0x10000 := by omega
                      have hr1 : 0xd800 ≤ 0xd800 + (c.toNat - 0x10000) / 0x400 ∧
                          0xd800 + (c.toNat - 0x10000) / 0x400 < 0xdc00 := by omega
                      have hr2 : 0xdc00 ≤ 0xdc00 + (c.toNat - 0x10000) % 0x400 ∧
                          0xdc00 + (c.toNat - 0x10000) % 0x400 < 0xe000 := by omega
                      have harg : 0x10000 +
                          (0xd800 + (c.toNat - 0x10000) / 0x400 - 0xd800) * 0x400 +
                          (0xdc00 + (c.toNat - 0x10000) % 0x400 - 0xdc00) = c.toNat := by
                        omega
                      have hdec := decodeOne_surrogate _ _ _ _ _ _ _ _ _ _
                        (l.flatMap escapeChar ++ '"' :: rest)
                        (hex4Val_round _ hhi) (hex4Val_round _ hlo) hr1 hr2
                      rw [hesc, hex4Chars_eq, hex4Chars_eq]
                      simp only [List.cons_append, List.append_assoc, List.nil_append]
                      rw [parseStringBody,
                        if_neg (show ¬('\\' : Char) = '"' by decide), if_pos rfl, hdec]
                      simp only [ih']
                      rw [harg, Char.ofNat_toNat]
                  · have hesc : escapeChar c = [c] := by
                      unfold escapeChar
                      rw [if_neg h1, if_neg h2, if_neg h3, if_neg h4, if_neg h5,
                        if_neg h6, if_neg h7, if_neg h8]
                    have h20 : ¬c.toNat < 0x20 := by omega
                    rw [hesc, List.singleton_append, parseStringBody, if_neg h1,
                      if_neg h2, if_neg h20, ih']

/-! ### Parsing the rendered values -/

theorem escapeChar_length_pos (c : Char) : 1 ≤ (escapeChar c).length := by
  unfold escapeChar
  repeat' split
  all_goals simp [hex4Chars]

theorem flatMap_escape_length (l : List Char) :
    l.length ≤ (l.flatMap escapeChar).length := by
  induction l with
  | nil => simp
  | cons c l ih =>
    rw [List.flatMap_cons, List.length_append, List.length_cons]
    have := escapeChar_length_pos c
    omega

theorem parseF_value_str (s : String) (rest : List Char) (fuel : Nat)
    (hf : 1 ≤ fuel) :
    parseF fuel .value (jstrChars s ++ rest) = some (.str s, rest) := by
  obtain ⟨f, rfl⟩ : ∃ f, fuel = f + 1 := ⟨fuel - 1, by omega⟩
  have hshape : jstrChars s ++ rest =
      '"' :: (s.toList.flatMap escapeChar ++ '"' :: rest) := by
    simp [jstrChars]
  rw [hshape, parseF, skipWs_cons_not_ws _ _ (by decide)]
  dsimp only
  rw [if_pos rfl]
  have hlen : s.toList.length + 1 ≤
      (s.toList.flatMap escapeChar ++ '"' :: rest).length + 1 := by
    have h1 := flatMap_escape_length s.toList
    have h2 : (s.toList.flatMap escapeChar ++ '"' :: rest).length =
        (s.toList.flatMap escapeChar).length + ('"' :: rest).length :=
      List.length_append _ _
    omega
  rw [parseStringBody_round s.toList rest _ hlen]
  rfl

theorem digit_facts (c : Char) (h : c.isDigit = true) :
    c ≠ '"' ∧ c ≠ '[' ∧ c ≠ '\x7b' ∧ isJsonWs c = false := by
  refine ⟨fun e => ?_, fun e => ?_, fun e => ?_, ?_⟩
  · rw [e] at h; exact absurd h (by decide)
  · rw [e] at h; exact absurd h (by decide)
  · rw [e] at h; exact absurd h (by decide)
  · cases hw : isJsonWs c with
    | false => rfl
    | true =>
      exfalso
      have : c = ' ' ∨ c = '\t' ∨ c = '\n' ∨ c = '\r' := by
        revert hw
        unfold isJsonWs
        rcases Decidable.em (c = ' ') with hc | hc <;> simp [hc] <;>
          rcases Decidable.em (c = '\t') with hc2 | hc2 <;> simp [hc2] <;>
          rcases Decidable.em (c = '\n') with hc3 | hc3 <;> simp [hc3] <;>
          rcases Decidable.em (c = '\r') with hc4 | hc4 <;> simp [hc4]
      rcases this with rfl | rfl | rfl | rfl <;> exact absurd h (by decide)

theorem takeWhile_append_all (p : Char → Bool) (l1 l2 : List Char)
    (h1 : ∀ c ∈ l1, p c = true) (h2 : noLead p l2) :
    (l1 ++ l2).takeWhile p = l1 ∧ (l1 ++ l2).dropWhile p = l2 := by
  induction l1 with
  | nil =>
    simp only [List.nil_append]
    cases l2 with
    | nil => simp
    | cons c l =>
      have hc : p c = false := h2
      simp [List.takeWhile_cons, List.dropWhile_cons, hc]
  | cons c l1 ih =>
    have hc : p c = true := h1 c (List.mem_cons_self _ _)
    have hrest := ih (fun x hx => h1 x (List.mem_cons_of_mem _ hx))
    simp [List.takeWhile_cons, List.dropWhile_cons, hc, hrest.1, hrest.2]

theorem parseF_value_num (n : Nat) (rest : List Char)
    (hrest : noLead Char.isDigit rest) (fuel : Nat) (hf : 1 ≤ fuel) :
    parseF fuel .value (jnatChars n ++ rest) = some (.num n, rest) := by
  obtain ⟨f, rfl⟩ : ∃ f, fuel = f + 1 := ⟨fuel - 1, by omega⟩
  obtain ⟨c0, ds, hds⟩ : ∃ c0 ds, jnatChars n = c0 :: ds := by
    rcases hnn : jnatChars n with _ | ⟨c0, ds⟩
    · exact absurd hnn (jnatChars_ne_nil n)
    · exact ⟨c0, ds, rfl⟩
  have hall := jnatChars_all_digits n
  have hc0 : c0.isDigit = true := hall c0 (by rw [hds]; exact List.mem_cons_self _ _)
  obtain ⟨hq, hb, hbr, hw⟩ := digit_facts c0 hc0
  have hsplit := takeWhile_append_all Char.isDigit (jnatChars n) rest hall hrest
  rw [hds] at hsplit
  rw [hds, List.cons_append, parseF, skipWs_cons_not_ws _ _ hw]
  dsimp only
  rw [if_neg hq, if_neg hb, if_neg hbr, if_pos hc0]
  rw [show (c0 :: (ds ++ rest)) = (c0 :: ds) ++ rest from rfl, hsplit.1, hsplit.2,
    ← hds, natFromDigits_jnatChars]

theorem noLead_digit_cons (c : Char) (h : c.isDigit = false) (l : List Char) :
    noLead Char.isDigit (c :: l) := h

theorem parseF_arrTail_round {α : Type} (renderV : α → List Char)
    (toJson : α → Json) (needV : α → Nat)
    (hval : ∀ (a : α) (rest : List Char) (fuel : Nat), needV a ≤ fuel →
      noLead Char.isDigit rest →
      parseF fuel .value (renderV a ++ rest) = some (toJson a, rest)) :
    ∀ (xs : List α) (lvl : Nat) (rest : List Char) (fuel : Nat), xs ≠ [] →
      arrTailNeed needV xs ≤ fuel →
      parseF fuel .arrTail
          ('\n' :: (arrItems renderV (lvl + 1) xs ++
            '\n' :: (indentChars lvl ++ ']' :: rest))) =
        some (.arr (xs.map toJson), rest) := by
  intro xs
  induction xs with
  | nil => intro lvl rest fuel h; exact absurd rfl h
  | cons x xs ih =>
    intro lvl rest fuel _ hf
    rw [arrTailNeed] at hf
    obtain ⟨f, rfl⟩ : ∃ f, fuel = f + 1 := ⟨fuel - 1, by omega⟩
    cases xs with
    | nil =>
      have hskip : skipWs ('\n' :: (arrItems renderV (lvl + 1) [x] ++
            '\n' :: (indentChars lvl ++ ']' :: rest))) =
          skipWs (renderV x ++ '\n' :: (indentChars lvl ++ ']' :: rest)) := by
        rw [show arrItems renderV (lvl + 1) [x] =
          indentChars (lvl + 1) ++ renderV x from rfl]
        rw [skipWs_cons_ws '\n' _ (by decide), List.append_assoc, skipWs_indent]
      have hv : parseF f .value
          ('\n' :: (arrItems renderV (lvl + 1) [x] ++
            '\n' :: (indentChars lvl ++ ']' :: rest))) =
          some (toJson x, '\n' :: (indentChars lvl ++ ']' :: rest)) := by
        rw [parseF_value_congr f _ _ hskip]
        exact hval x _ f (by omega) (noLead_digit_cons '\n' (by decide) _)
      rw [parseF, hv]
      dsimp only
      rw [skipWs_cons_ws '\n' _ (by decide), skipWs_indent,
        skipWs_cons_not_ws ']' _ (by decide)]
      dsimp only
      rw [if_neg (by decide : ¬(']' : Char) = ','), if_pos rfl]
      rfl
    | cons y xs =>
      have hskip : skipWs ('\n' :: (arrItems renderV (lvl + 1) (x :: y :: xs) ++
            '\n' :: (indentChars lvl ++ ']' :: rest))) =
          skipWs (renderV x ++
            ',' :: '\n' :: (arrItems renderV (lvl + 1) (y :: xs) ++
              '\n' :: (indentChars lvl ++ ']' :: rest))) := by
        rw [show arrItems renderV (lvl + 1) (x :: y :: xs) =
          indentChars (lvl + 1) ++ renderV x ++
            ',' :: '\n' :: arrItems renderV (lvl + 1) (y :: xs) from rfl]
        rw [skipWs_cons_ws '\n' _ (by decide)]
        simp only [List.append_assoc, List.cons_append]
        rw [skipWs_indent]
      have hv : parseF f .value
          ('\n' :: (arrItems renderV (lvl + 1) (x :: y :: xs) ++
            '\n' :: (indentChars lvl ++ ']' :: rest))) =
          some (toJson x,
            ',' :: '\n' :: (arrItems renderV (lvl + 1) (y :: xs) ++
              '\n' :: (indentChars lvl ++ ']' :: rest))) := by
        rw [parseF_value_congr f _ _ hskip]
        exact hval x _ f (by omega) (noLead_digit_cons ',' (by decide) _)
      rw [parseF, hv]
      dsimp only
      rw [skipWs_cons_not_ws ',' _ (by decide)]
      dsimp only
      rw [if_pos rfl,
        ih lvl rest f (by simp) (by rw [arrTailNeed] at hf ⊢; omega)]
      rfl

theorem parseF_objTail_round {α : Type} (renderV : α → List Char)
    (toJson : α → Json) (needV : α → Nat)
    (hval : ∀ (a : α) (rest : List Char) (fuel : Nat), needV a ≤ fuel →
      noLead Char.isDigit rest →
      parseF fuel .value (renderV a ++ rest) = some (toJson a, rest)) :
    ∀ (kvs : List (String × α)) (lvl : Nat) (rest : List Char) (fuel : Nat),
      kvs ≠ [] → objTailNeed needV kvs ≤ fuel →
      parseF fuel .objTail
          ('\n' :: (objItems renderV (lvl + 1) kvs ++
            '\n' :: (indentChars lvl ++ '\x7d' :: rest))) =
        some (.obj (kvs.map (fun e => (e.1, toJson e.2))), rest) := by
  intro kvs
  induction kvs with
  | nil => intro lvl rest fuel h; exact absurd rfl h
  | cons e kvs ih =>
    obtain ⟨k, v⟩ := e
    intro lvl rest fuel _ hf
    rw [objTailNeed] at hf
    dsimp only at hf
    obtain ⟨f, rfl⟩ : ∃ f, fuel = f + 1 := ⟨fuel - 1, by omega⟩
    cases kvs with
    | nil =>
      have hskip : skipWs ('\n' :: (objItems renderV (lvl + 1) [(k, v)] ++
            '\n' :: (indentChars lvl ++ '\x7d' :: rest))) =
          '"' :: (k.toList.flatMap escapeChar ++
            '"' :: (':' :: ' ' :: (renderV v ++
              '\n' :: (indentChars lvl ++ '\x7d' :: rest)))) := by
        rw [show objItems renderV (lvl + 1) [(k, v)] =
          indentChars (lvl + 1) ++ jstrChars k ++ ':' :: ' ' :: renderV v from rfl]
        rw [show jstrChars k = '"' :: (k.toList.flatMap escapeChar ++ ['"']) from rfl]
        rw [skipWs_cons_ws '\n' _ (by decide)]
        simp only [List.append_assoc, List.cons_append, List.nil_append]
        rw [skipWs_indent, skipWs_cons_not_ws '"' _ (by decide)]
      rw [parseF, hskip]
      dsimp only
      rw [if_pos rfl]
      have hlen : k.toList.length + 1 ≤
          (k.toList.flatMap escapeChar ++
            '"' :: (':' :: ' ' :: (renderV v ++
              '\n' :: (indentChars lvl ++ '\x7d' :: rest)))).length + 1 := by
        have h1 := flatMap_escape_length k.toList
        have h2 := List.length_append (k.toList.flatMap escapeChar)
          ('"' :: (':' :: ' ' :: (renderV v ++
            '\n' :: (indentChars lvl ++ '\x7d' :: rest))))
        omega
      rw [parseStringBody_round k.toList _ _ hlen]
      dsimp only
      rw [skipWs_cons_not_ws ':' _ (by decide)]
      dsimp only
      rw [if_pos rfl]
      have hv : parseF f .value
          (' ' :: (renderV v ++ '\n' :: (indentChars lvl ++ '\x7d' :: rest))) =
          some (toJson v, '\n' :: (indentChars lvl ++ '\x7d' :: rest)) := by
        rw [parseF_value_congr f _
          (renderV v ++ '\n' :: (indentChars lvl ++ '\x7d' :: rest))
          (skipWs_cons_ws ' ' _ (by decide))]
        exact hval v _ f (by omega) (noLead_digit_cons '\n' (by decide) _)
      rw [hv]
      dsimp only
      rw [skipWs_cons_ws '\n' _ (by decide), skipWs_indent,
        skipWs_cons_not_ws '\x7d' _ (by decide)]
      dsimp only
      rw [if_neg (by decide : ¬('\x7d' : Char) = ','), if_pos rfl]
      rfl
    | cons e2 kvs =>
      have hskip : skipWs ('\n' :: (objItems renderV (lvl + 1) ((k, v) :: e2 :: kvs) ++
            '\n' :: (indentChars lvl ++ '\x7d' :: rest))) =
          '"' :: (k.toList.flatMap escapeChar ++
            '"' :: (':' :: ' ' :: (renderV v ++
              ',' :: '\n' :: (objItems renderV (lvl + 1) (e2 :: kvs) ++
                '\n' :: (indentChars lvl ++ '\x7d' :: rest))))) := by
        rw [show objItems renderV (lvl + 1) ((k, v) :: e2 :: kvs) =
          indentChars (lvl + 1) ++ jstrChars k ++ ':' :: ' ' :: renderV v ++
            ',' :: '\n' :: objItems renderV (lvl + 1) (e2 :: kvs) from rfl]
        rw [show jstrChars k = '"' :: (k.toList.flatMap escapeChar ++ ['"']) from rfl]
        rw [skipWs_cons_ws '\n' _ (by decide)]
        simp only [List.append_assoc, List.cons_append, List.nil_append]
        rw [skipWs_indent, skipWs_cons_not_ws '"' _ (by decide)]
      rw [parseF, hskip]
      dsimp only
      rw [if_pos rfl]
      have hlen : k.toList.length + 1 ≤
          (k.toList.flatMap escapeChar ++
            '"' :: (':' :: ' ' :: (renderV v ++
              ',' :: '\n' :: (objItems renderV (lvl + 1) (e2 :: kvs) ++
                '\n' :: (indentChars lvl ++ '\x7d' :: rest))))).length + 1 := by
        have h1 := flatMap_escape_length k.toList
        have h2 := List.length_append (k.toList.flatMap escapeChar)
          ('"' :: (':' :: ' ' :: (renderV v ++
            ',' :: '\n' :: (objItems renderV (lvl + 1) (e2 :: kvs) ++
              '\n' :: (indentChars lvl ++ '\x7d' :: rest)))))
        omega
      rw [parseStringBody_round k.toList _ _ hlen]
      dsimp only
      rw [skipWs_cons_not_ws ':' _ (by decide)]
      dsimp only
      rw [if_pos rfl]
      have hv : parseF f .value
          (' ' :: (renderV v ++
            ',' :: '\n' :: (objItems renderV (lvl + 1) (e2 :: kvs) ++
              '\n' :: (indentChars lvl ++ '\x7d' :: rest)))) =
          some (toJson v,
            ',' :: '\n' :: (objItems renderV (lvl + 1) (e2 :: kvs) ++
              '\n' :: (indentChars lvl ++ '\x7d' :: rest))) := by
        rw [parseF_value_congr f _
          (renderV v ++ ',' :: '\n' :: (objItems renderV (lvl + 1) (e2 :: kvs) ++
            '\n' :: (indentChars lvl ++ '\x7d' :: rest)))
          (skipWs_cons_ws ' ' _ (by decide))]
        exact hval v _ f (by omega) (noLead_digit_cons ',' (by decide) _)
      rw [hv]
      dsimp only
      rw [skipWs_cons_not_ws ',' _ (by decide)]
      dsimp only
      rw [if_pos rfl,
        ih lvl rest f (by simp) (by rw [objTailNeed] at hf ⊢; omega)]
      rfl

theorem arrItems_cons_shape {α : Type} (renderV : α → List Char) (lvl : Nat)
    (x : α) (xs : List α) :
    ∃ S, arrItems renderV lvl (x :: xs) = indentChars lvl ++ (renderV x ++ S) := by
  cases xs with
  | nil => exact ⟨[], by simp [arrItems]⟩
  | cons y ys =>
    exact ⟨',' :: '\n' :: arrItems renderV lvl (y :: ys),
      by simp [arrItems, List.append_assoc]⟩

theorem objItems_cons_shape {α : Type} (renderV : α → List Char) (lvl : Nat)
    (e : String × α) (kvs : List (String × α)) :
    ∃ S, objItems renderV lvl (e :: kvs) =
      indentChars lvl ++ ('"' :: (e.1.toList.flatMap escapeChar ++ '"' :: S)) := by
  cases kvs with
  | nil =>
    refine ⟨':' :: ' ' :: renderV e.2, ?_⟩
    rw [show objItems renderV lvl [e] =
      indentChars lvl ++ jstrChars e.1 ++ ':' :: ' ' :: renderV e.2 from rfl]
    rw [show jstrChars e.1 = '"' :: (e.1.toList.flatMap escapeChar ++ ['"']) from rfl]
    simp [List.append_assoc]
  | cons e2 kvs =>
    refine ⟨':' :: ' ' :: renderV e.2 ++
      ',' :: '\n' :: objItems renderV lvl (e2 :: kvs), ?_⟩
    rw [show objItems renderV lvl (e :: e2 :: kvs) =
      indentChars lvl ++ jstrChars e.1 ++ ':' :: ' ' :: renderV e.2 ++
        ',' :: '\n' :: objItems renderV lvl (e2 :: kvs) from rfl]
    rw [show jstrChars e.1 = '"' :: (e.1.toList.flatMap escapeChar ++ ['"']) from rfl]
    simp [List.append_assoc]

theorem parseF_value_arr_round {α : Type} (renderV : α → List Char)
    (toJson : α → Json) (needV : α → Nat)
    (hval : ∀ (a : α) (rest : List Char) (fuel : Nat), needV a ≤ fuel →
      noLead Char.isDigit rest →
      parseF fuel .value (renderV a ++ rest) = some (toJson a, rest))
    (hstart : ∀ a, startOk (renderV a)) :
    ∀ (xs : List α) (lvl : Nat) (rest : List Char) (fuel : Nat),
      arrTailNeed needV xs + 1 ≤ fuel →
      parseF fuel .value (jArrChars renderV xs lvl ++ rest) =
        some (.arr (xs.map toJson), rest) := by
  intro xs lvl rest fuel hf
  obtain ⟨f, rfl⟩ : ∃ f, fuel = f + 1 := ⟨fuel - 1, by omega⟩
  cases xs with
  | nil =>
    rw [show jArrChars renderV [] lvl ++ rest = '[' :: ']' :: rest from rfl,
      parseF, skipWs_cons_not_ws '[' _ (by decide)]
    dsimp only
    rw [if_neg (by decide : ¬('[' : Char) = '"'), if_pos rfl,
      skipWs_cons_not_ws ']' _ (by decide)]
    dsimp only
    rw [if_pos rfl]
    rfl
  | cons x xs =>
    have hshape : jArrChars renderV (x :: xs) lvl ++ rest =
        '[' :: ('\n' :: (arrItems renderV (lvl + 1) (x :: xs) ++
          '\n' :: (indentChars lvl ++ ']' :: rest))) := by
      rw [show jArrChars renderV (x :: xs) lvl =
        '[' :: '\n' :: arrItems renderV (lvl + 1) (x :: xs) ++
          '\n' :: indentChars lvl ++ [']'] from rfl]
      simp [List.append_assoc]
    obtain ⟨S, hS⟩ := arrItems_cons_shape renderV (lvl + 1) x xs
    rcases hrx : renderV x with _ | ⟨c0, t⟩
    · exact absurd (hrx ▸ hstart x) (by simp [startOk])
    · obtain ⟨hc0ws, hc0br⟩ : isJsonWs c0 = false ∧ c0 ≠ ']' := by
        have := hstart x
        rw [hrx] at this
        exact this
      have hskip : skipWs ('\n' :: (arrItems renderV (lvl + 1) (x :: xs) ++
            '\n' :: (indentChars lvl ++ ']' :: rest))) =
          c0 :: (t ++ (S ++ '\n' :: (indentChars lvl ++ ']' :: rest))) := by
        rw [hS, skipWs_cons_ws '\n' _ (by decide)]
        simp only [List.append_assoc, List.cons_append]
        rw [skipWs_indent, hrx]
        rw [List.cons_append, skipWs_cons_not_ws c0 _ hc0ws]
      rw [hshape, parseF, skipWs_cons_not_ws '[' _ (by decide)]
      dsimp only
      rw [if_neg (by decide : ¬('[' : Char) = '"'), if_pos rfl, hskip]
      dsimp only
      rw [if_neg hc0br,
        parseF_arrTail_round renderV toJson needV hval (x :: xs) lvl rest f
          (by simp) (by omega)]

theorem parseF_value_obj_round {α : Type} (renderV : α → List Char)
    (toJson : α → Json) (needV : α → Nat)
    (hval : ∀ (a : α) (rest : List Char) (fuel : Nat), needV a ≤ fuel →
      noLead Char.isDigit rest →
      parseF fuel .value (renderV a ++ rest) = some (toJson a, rest)) :
    ∀ (kvs : List (String × α)) (lvl : Nat) (rest : List Char) (fuel : Nat),
      objTailNeed needV kvs + 1 ≤ fuel →
      parseF fuel .value (jObjChars renderV kvs lvl ++ rest) =
        some (.obj (kvs.map (fun e => (e.1, toJson e.2))), rest) := by
  intro kvs lvl rest fuel hf
  obtain ⟨f, rfl⟩ : ∃ f, fuel = f + 1 := ⟨fuel - 1, by omega⟩
  cases kvs with
  | nil =>
    rw [show jObjChars renderV [] lvl ++ rest = '\x7b' :: '\x7d' :: rest from rfl,
      parseF, skipWs_cons_not_ws '\x7b' _ (by decide)]
    dsimp only
    rw [if_neg (by decide : ¬('\x7b' : Char) = '"'),
      if_neg (by decide : ¬('\x7b' : Char) = '['), if_pos rfl,
      skipWs_cons_not_ws '\x7d' _ (by decide)]
    dsimp only
    rw [if_pos rfl]
    rfl
  | cons e kvs =>
    have hshape : jObjChars renderV (e :: kvs) lvl ++ rest =
        '\x7b' :: ('\n' :: (objItems renderV (lvl + 1) (e :: kvs) ++
          '\n' :: (indentChars lvl ++ '\x7d' :: rest))) := by
      rw [show jObjChars renderV (e :: kvs) lvl =
        '\x7b' :: '\n' :: objItems renderV (lvl + 1) (e :: kvs) ++
          '\n' :: indentChars lvl ++ ['\x7d'] from rfl]
      simp [List.append_assoc]
    obtain ⟨S, hS⟩ := objItems_cons_shape renderV (lvl + 1) e kvs
    have hskip : skipWs ('\n' :: (objItems renderV (lvl + 1) (e :: kvs) ++
          '\n' :: (indentChars lvl ++ '\x7d' :: rest))) =
        '"' :: ((e.1.toList.flatMap escapeChar ++ '"' :: S) ++
          '\n' :: (indentChars lvl ++ '\x7d' :: rest)) := by
      rw [hS, skipWs_cons_ws '\n' _ (by decide)]
      simp only [List.append_assoc, List.cons_append]
      rw [skipWs_indent, skipWs_cons_not_ws '"' _ (by decide)]
    rw [hshape, parseF, skipWs_cons_not_ws '\x7b' _ (by decide)]
    dsimp only
    rw [if_neg (by decide : ¬('\x7b' : Char) = '"'),
      if_neg (by decide : ¬('\x7b' : Char) = '['), if_pos rfl, hskip]
    dsimp only
    rw [if_neg (by decide : ¬('"' : Char) = '\x7d'),
      parseF_objTail_round renderV toJson needV hval (e :: kvs) lvl rest f
        (by simp) (by omega)]

theorem jstrChars_startOk (s : String) : startOk (jstrChars s) :=
  ⟨by decide, by decide⟩

theorem sval_hval : ∀ (a : SVal) (rest : List Char) (fuel : Nat),
    svalNeed a ≤ fuel → noLead Char.isDigit rest →
    parseF fuel .value (renderSVal a ++ rest) = some (svalToJson a, rest) := by
  intro a rest fuel hf hlead
  cases a with
  | num n => exact parseF_value_num n rest hlead fuel (by rw [svalNeed] at hf; omega)
  | counts kvs =>
    exact parseF_value_obj_round jnatChars Json.num (fun _ => 1)
      (fun a r fl h1 h2 => parseF_value_num a r h2 fl h1) kvs 1 rest fuel
      (by rw [svalNeed] at hf; omega)
  | strs xs =>
    exact parseF_value_arr_round jstrChars Json.str (fun _ => 1)
      (fun a r fl h1 _ => parseF_value_str a r fl h1) jstrChars_startOk xs 1 rest
      fuel (by rw [svalNeed] at hf; omega)
  | deps kvs =>
    exact parseF_value_obj_round (fun v => jArrChars jstrChars v 2)
      (fun v => Json.arr (v.map Json.str)) (fun v => arrTailNeed (fun _ => 1) v + 1)
      (fun a r fl h1 _ => parseF_value_arr_round jstrChars Json.str (fun _ => 1)
        (fun a2 r2 fl2 h3 _ => parseF_value_str a2 r2 fl2 h3) jstrChars_startOk
        a 2 r fl h1)
      kvs 1 rest fuel (by rw [svalNeed] at hf; omega)

/-! ### Fuel bounds from rendered lengths -/

theorem indentChars_length (lvl : Nat) : (indentChars lvl).length = 2 * lvl := by
  simp [indentChars]

theorem arrTailNeed_le_itemsLength {α : Type} (renderV : α → List Char)
    (needV : α → Nat) (hlen : ∀ a, needV a ≤ (renderV a).length + 1) :
    ∀ (xs : List α) (lvl : Nat),
      arrTailNeed needV xs ≤ (arrItems renderV (lvl + 1) xs).length := by
  intro xs
  induction xs with
  | nil => intro lvl; simp [arrTailNeed, arrItems]
  | cons x xs ih =>
    intro lvl
    cases xs with
    | nil =>
      rw [arrTailNeed, arrTailNeed,
        show arrItems renderV (lvl + 1) [x] =
          indentChars (lvl + 1) ++ renderV x from rfl, List.length_append,
        indentChars_length]
      have := hlen x
      omega
    | cons y ys =>
      rw [arrTailNeed,
        show arrItems renderV (lvl + 1) (x :: y :: ys) =
          indentChars (lvl + 1) ++ renderV x ++
            ',' :: '\n' :: arrItems renderV (lvl + 1) (y :: ys) from rfl]
      have h1 := hlen x
      have h2 := ih lvl
      simp only [List.length_append, List.length_cons, indentChars_length]
      omega

theorem objTailNeed_le_itemsLength {α : Type} (renderV : α → List Char)
    (needV : α → Nat) (hlen : ∀ a, needV a ≤ (renderV a).length + 1) :
    ∀ (kvs : List (String × α)) (lvl : Nat),
      objTailNeed needV kvs ≤ (objItems renderV (lvl + 1) kvs).length := by
  intro kvs
  induction kvs with
  | nil => intro lvl; simp [objTailNeed, objItems]
  | cons e kvs ih =>
    intro lvl
    cases kvs with
    | nil =>
      rw [objTailNeed, objTailNeed,
        show objItems renderV (lvl + 1) [e] =
          indentChars (lvl + 1) ++ jstrChars e.1 ++
            ':' :: ' ' :: renderV e.2 from rfl]
      have := hlen e.2
      simp only [List.length_append, List.length_cons, indentChars_length]
      omega
    | cons e2 kvs =>
      rw [objTailNeed,
        show objItems renderV (lvl + 1) (e :: e2 :: kvs) =
          indentChars (lvl + 1) ++ jstrChars e.1 ++ ':' :: ' ' :: renderV e.2 ++
            ',' :: '\n' :: objItems renderV (lvl + 1) (e2 :: kvs) from rfl]
      have h1 := hlen e.2
      have h2 := ih lvl
      simp only [List.length_append, List.length_cons, indentChars_length]
      omega

theorem arrValueNeed_le {α : Type} (renderV : α → List Char) (needV : α → Nat)
    (hlen : ∀ a, needV a ≤ (renderV a).length + 1) (xs : List α) (lvl : Nat) :
    arrTailNeed needV xs + 1 ≤ (jArrChars renderV xs lvl).length + 1 := by
  cases xs with
  | nil => simp [arrTailNeed, jArrChars]
  | cons x xs =>
    have h := arrTailNeed_le_itemsLength renderV needV hlen (x :: xs) lvl
    rw [show jArrChars renderV (x :: xs) lvl =
      '[' :: '\n' :: arrItems renderV (lvl + 1) (x :: xs) ++
        '\n' :: indentChars lvl ++ [']'] from rfl]
    simp only [List.length_append, List.length_cons, indentChars_length]
    omega

theorem objValueNeed_le {α : Type} (renderV : α → List Char) (needV : α → Nat)
    (hlen : ∀ a, needV a ≤ (renderV a).length + 1) (kvs : List (String × α))
    (lvl : Nat) :
    objTailNeed needV kvs + 1 ≤ (jObjChars renderV kvs lvl).length + 1 := by
  cases kvs with
  | nil => simp [objTailNeed, jObjChars]
  | cons e kvs =>
    have h := objTailNeed_le_itemsLength renderV needV hlen (e :: kvs) lvl
    rw [show jObjChars renderV (e :: kvs) lvl =
      '\x7b' :: '\n' :: objItems renderV (lvl + 1) (e :: kvs) ++
        '\n' :: indentChars lvl ++ ['\x7d'] from rfl]
    simp only [List.length_append, List.length_cons, indentChars_length]
    omega

theorem svalNeed_le (a : SVal) : svalNeed a ≤ (renderSVal a).length + 1 := by
  cases a with
  | num n => rw [svalNeed]; omega
  | counts kvs =>
    rw [svalNeed, show renderSVal (.counts kvs) = jObjChars jnatChars kvs 1 from rfl]
    exact objValueNeed_le jnatChars (fun _ => 1) (fun _ => Nat.succ_le_succ (Nat.zero_le _)) kvs 1
  | strs xs =>
    rw [svalNeed, show renderSVal (.strs xs) = jArrChars jstrChars xs 1 from rfl]
    exact arrValueNeed_le jstrChars (fun _ => 1) (fun _ => Nat.succ_le_succ (Nat.zero_le _)) xs 1
  | deps kvs =>
    rw [svalNeed,
      show renderSVal (.deps kvs) =
        jObjChars (fun v => jArrChars jstrChars v 2) kvs 1 from rfl]
    exact objValueNeed_le (fun v => jArrChars jstrChars v 2)
      (fun v => arrTailNeed (fun _ => 1) v + 1)
      (fun v => arrValueNeed_le jstrChars (fun _ => 1) (fun _ => Nat.succ_le_succ (Nat.zero_le _)) v 2)
      kvs 1

/-! ### The summary round trip -/

theorem json_loads_dumps (documented actual : Finset String)
    (deps : List (String × List String)) :
    json_loads (json_dumps_summary documented actual deps) =
      some (generate_json_summary documented actual deps) := by
  unfold json_loads json_dumps_summary
  rw [show (String.mk (jObjChars renderSVal
      (summaryPairs documented actual deps) 0)).toList =
    jObjChars renderSVal (summaryPairs documented actual deps) 0 from rfl]
  have hfuel : objTailNeed svalNeed (summaryPairs documented actual deps) + 1 ≤
      (jObjChars renderSVal (summaryPairs documented actual deps) 0).length + 1 :=
    objValueNeed_le renderSVal svalNeed svalNeed_le _ 0
  have hparse := parseF_value_obj_round renderSVal svalToJson svalNeed sval_hval
    (summaryPairs documented actual deps) 0 []
    ((jObjChars renderSVal (summaryPairs documented actual deps) 0).length + 1)
    hfuel
  rw [List.append_nil] at hparse
  rw [hparse]
  rfl

/-! ## Claim theorems -/

/-- C1: the diff engine returns `missing` as the sorted, duplicate-free
sequence of exactly the elements of the documented set `D` not in the
actual set `A`, and `undocumented` as the sorted, duplicate-free sequence
of exactly the elements of `A` not in `D`; when `D` is empty, `missing` is
empty and `undocumented` contains exactly the elements of `A`. -/
theorem c1_diff_engine (D A : Finset String) (x : String) :
    List.Sorted (· ≤ ·) (missingList D A) ∧
      List.Sorted (· ≤ ·) (undocumentedList D A) ∧
      (missingList D A).Nodup ∧ (undocumentedList D A).Nodup ∧
      (x ∈ missingList D A ↔ x ∈ D ∧ x ∉ A) ∧
      (x ∈ undocumentedList D A ↔ x ∈ A ∧ x ∉ D) ∧
      missingList ∅ A = [] ∧
      (x ∈ undocumentedList ∅ A ↔ x ∈ A) := by
  refine ⟨Finset.sort_sorted _ _, Finset.sort_sorted _ _,
    Finset.sort_nodup _ _, Finset.sort_nodup _ _, ?_, ?_, ?_, ?_⟩
  · simp [missingList, Finset.mem_sort, Finset.mem_sdiff]
  · simp [undocumentedList, Finset.mem_sort, Finset.mem_sdiff]
  · simp [missingList, Finset.empty_sdiff, Finset.sort_empty]
  · simp [undocumentedList, Finset.sdiff_empty, Finset.mem_sort]

/-- C2: path extraction returns exactly the pattern matches found on the
documentation lines, deduplicated and with the three bare top-level
directory references excluded; every extracted path is the project prefix
followed by a non-empty run of path characters; and the documentation line
`"See synnergy-network/core/foo.go and synnergy-network/GUI"` yields
exactly the set containing `"synnergy-network/core/foo.go"`. -/
theorem c2_path_extractor (docLines : List String) (x : String) :
    (x ∈ parse_documented_files docLines ↔
        (∃ l ∈ docLines, x ∈ findall l) ∧ x ∉ EXCLUDED_ROOTS) ∧
      (x ∈ parse_documented_files docLines →
        ∃ t : List Char, x = String.mk (filePrefix ++ t) ∧ t ≠ [] ∧
          t.all isPathChar = true) ∧
      parse_documented_files
          ["See synnergy-network/core/foo.go and synnergy-network/GUI"] =
        {"synnergy-network/core/foo.go"} := by
  refine ⟨parse_documented_files_mem docLines x, fun hx => ?_, by decide⟩
  obtain ⟨⟨l, _, hfx⟩, _⟩ := (parse_documented_files_mem docLines x).mp hx
  exact findall_sound l x hfx

/-- Witness for C2: the scenario line yields exactly the singleton set,
and its element is a pattern match that survives the exclusion. -/
theorem c2_witness :
    parse_documented_files
        ["See synnergy-network/core/foo.go and synnergy-network/GUI"] =
      {"synnergy-network/core/foo.go"} :=
  (c2_path_extractor [] "").2.2

/-- C3: on a well-formed structured manifest (both sections present as
objects after `data.get(section, {})`), the parser returns the
`"name version"` strings of the `dependencies` section in insertion
order, followed by those of the `devDependencies` section in insertion
order. -/
theorem c3_package_json_sections (data d v : List (String × Json))
    (hd : pyGet data "dependencies" = Json.obj d)
    (hv : pyGet data "devDependencies" = Json.obj v) :
    parse_package_json_data (Json.obj data) =
      Except.ok (d.map fmtEntry ++ v.map fmtEntry) := by
  simp [parse_package_json_data, hd, hv, sectionItems]
  rfl

/-- Witness for C3: the manifest
`{"dependencies": {"x": "1.0"}, "devDependencies": {"y": "2.0"}}` yields
the ordered list `["x 1.0", "y 2.0"]`. -/
theorem c3_witness :
    parse_package_json_data (Json.obj
        [("dependencies", Json.obj [("x", Json.str "1.0")]),
         ("devDependencies", Json.obj [("y", Json.str "2.0")])]) =
      Except.ok ["x 1.0", "y 2.0"] :=
  c3_package_json_sections _ [("x", Json.str "1.0")] [("y", Json.str "2.0")]
    rfl rfl

/-- C4: the block-style manifest parser agrees, on every list of lines,
with the declarative scan written from the spec's description of Format A
(non-blank interior lines of a requirement block, plus the remainders of
single-line requirement declarations outside a block, in file order and
nothing else); a concrete manifest with both forms parses accordingly. -/
theorem c4_go_mod_format (lines : List String) :
    parse_go_mod_lines lines = goModSpecScan false lines ∧
      parse_go_mod
          "require (\n\tgolang.org/x v1.0.0\n\n)\nrequire example.com/y v2.0.0\n" =
        ["golang.org/x v1.0.0", "example.com/y v2.0.0"] :=
  ⟨by simpa using goMod_fold_spec lines [] false, by decide⟩

/-- C5: serialising the JSON summary with `json.dumps(..., indent=2)` and
re-parsing the text yields exactly the summary value that was computed
directly — in particular the same documented and actual totals, the same
sorted `missing` and `undocumented` arrays, and the same dependency
map. -/
theorem c5_json_round_trip (D A : Finset String)
    (deps : List (String × List String)) :
    json_loads (json_dumps_summary D A deps) =
        some (generate_json_summary D A deps) ∧
      jsonObjLookup (generate_json_summary D A deps) "documented_total" =
        some (.num D.card) ∧
      jsonObjLookup (generate_json_summary D A deps) "actual_total" =
        some (.num A.card) ∧
      jsonObjLookup (generate_json_summary D A deps) "documented_counts" =
        some (.obj ((computeCountsOfSet D).map (fun e => (e.1, Json.num e.2)))) ∧
      jsonObjLookup (generate_json_summary D A deps) "actual_counts" =
        some (.obj ((computeCountsOfSet A).map (fun e => (e.1, Json.num e.2)))) ∧
      jsonObjLookup (generate_json_summary D A deps) "missing" =
        some (.arr ((missingList D A).map Json.str)) ∧
      jsonObjLookup (generate_json_summary D A deps) "undocumented" =
        some (.arr ((undocumentedList D A).map Json.str)) ∧
      jsonObjLookup (generate_json_summary D A deps) "dependencies" =
        some (.obj (deps.map (fun e => (e.1, Json.arr (e.2.map Json.str))))) :=
  ⟨json_loads_dumps D A deps, rfl, rfl, rfl, rfl, rfl, rfl, rfl⟩

/-- C9: parsing a structured manifest surfaces a `JSONDecodeError` exactly
when `json.loads` rejects the text (a well-formed but non-object document
raises an `AttributeError` instead, and well-formed manifests parse), and
the block-style `go.mod` parser is a total line scan that never raises. -/
theorem c9_manifest_errors (text : String) :
    (parse_package_json text = Except.error PyErr.jsonDecodeError ↔
        json_loads text = none) ∧
      parse_go_mod text = parse_go_mod_lines (pySplitlines text) ∧
      parse_package_json "[1]" = Except.error PyErr.attributeError ∧
      parse_package_json "not json" = Except.error PyErr.jsonDecodeError := by
  have hsec : ∀ j : Json, sectionItems j = .error .attributeError ∨
      ∃ kvs, sectionItems j = .ok kvs := by
    intro j
    cases j <;> simp [sectionItems]
  have hnd : ∀ j : Json,
      parse_package_json_data j ≠ Except.error PyErr.jsonDecodeError := by
    intro j
    cases j with
    | obj kvs =>
      unfold parse_package_json_data
      rcases hsec (pyGet kvs "dependencies") with h1 | ⟨d, h1⟩ <;>
        rcases hsec (pyGet kvs "devDependencies") with h2 | ⟨v, h2⟩ <;>
        simp [h1, h2, Bind.bind, Except.bind]
    | null => simp [parse_package_json_data]
    | bool b => simp [parse_package_json_data]
    | num n => simp [parse_package_json_data]
    | str s => simp [parse_package_json_data]
    | arr xs => simp [parse_package_json_data]
  refine ⟨⟨fun h => ?_, fun h => ?_⟩, rfl, by rfl, by rfl⟩
  · cases hl : json_loads text with
    | none => rfl
    | some j =>
      unfold parse_package_json at h
      rw [hl] at h
      exact absurd h (hnd j)
  · unfold parse_package_json
    rw [h]

/-- C6: the per-directory count for a key equals the number of paths whose
second slash-separated segment is that key when the key is in the owner
map (and `0` otherwise); every key produced by `compute_counts` is an
owner-map key; and membership in the `missing`/`undocumented` lists is
determined purely by set difference, so a path whose second segment is
outside the owner map still appears there. -/
theorem c6_counts (paths : List String) (k : String) (D A : Finset String)
    (p : String) :
    (countsGet (compute_counts paths) k =
        if inOwnerMap k then paths.countP (fun q => secondSeg q == some k) else 0) ∧
      (compute_counts paths).all (fun e => inOwnerMap e.1) = true ∧
      (p ∈ missingList D A ↔ p ∈ D ∧ p ∉ A) ∧
      (p ∈ undocumentedList D A ↔ p ∈ A ∧ p ∉ D) :=
  ⟨compute_counts_get paths k, compute_counts_keys paths,
    by simp [missingList, Finset.mem_sort, Finset.mem_sdiff],
    by simp [undocumentedList, Finset.mem_sort, Finset.mem_sdiff]⟩

/-- C7: an empty entry list renders as exactly the section header, the
literal `"(none)"` marker and a blank line — no table; hence for equal
documented and actual sets the whole report is produced with both the
Missing Files and Undocumented Files sections rendering `"(none)"`. -/
theorem c7_none_marker (title priority : String) (A : Finset String)
    (deps : List (String × List String)) :
    sectionLines title [] priority = some [title, "(none)", ""] ∧
      generate_report_lines A A deps =
        some (summaryHeaderLines A A ++
          ["## Missing Files (0)", "(none)", ""] ++
          ["## Undocumented Files (0)", "(none)", ""] ++
          "## Dependencies" :: depsLines deps) := by
  have hm : missingList A A = [] := by
    simp [missingList, Finset.sdiff_self, Finset.sort_empty]
  have hu : undocumentedList A A = [] := by
    simp [undocumentedList, Finset.sdiff_self, Finset.sort_empty]
  refine ⟨by simp [sectionLines], ?_⟩
  unfold generate_report_lines
  rw [hm, hu]
  simp [sectionLines]
  exact ⟨by decide, by decide⟩

/-- C8: whenever the report is produced, every path of the missing list
has a row whose Owner column is the owner-map value of its second
slash-separated segment with `"Unassigned"` as the fallback for segments
outside the map (`ownerMapGetD`), with priority `High`; likewise for the
undocumented list with priority `Review`. -/
theorem c8_owner_column (D A : Finset String) (deps : List (String × List String))
    (out : List String) (hrep : generate_report_lines D A deps = some out)
    (p : String) :
    (p ∈ missingList D A → ∃ seg, secondSeg p = some seg ∧
      fileRowStr p (ownerMapGetD seg) "High" ∈ out) ∧
      (p ∈ undocumentedList D A → ∃ seg, secondSeg p = some seg ∧
        fileRowStr p (ownerMapGetD seg) "Review" ∈ out) := by
  unfold generate_report_lines at hrep
  cases hms : sectionLines
      ("## Missing Files (" ++ decimalRepr (missingList D A).length ++ ")")
      (missingList D A) "High" with
  | none => rw [hms] at hrep; simp at hrep
  | some msec =>
    rw [hms] at hrep
    cases hus : sectionLines
        ("## Undocumented Files (" ++ decimalRepr (undocumentedList D A).length ++ ")")
        (undocumentedList D A) "Review" with
    | none => rw [hus] at hrep; simp at hrep
    | some usec =>
      rw [hus] at hrep
      simp only [Option.bind_eq_bind, Option.some_bind, Option.some.injEq] at hrep
      constructor
      · intro hp
        obtain ⟨seg, hseg, hmem⟩ := sectionLines_rows _ _ _ _ hms p hp
        refine ⟨seg, hseg, ?_⟩
        rw [← hrep]
        exact List.mem_append_left _
          (List.mem_append_left _ (List.mem_append_right _ hmem))
      · intro hp
        obtain ⟨seg, hseg, hmem⟩ := sectionLines_rows _ _ _ _ hus p hp
        refine ⟨seg, hseg, ?_⟩
        rw [← hrep]
        exact List.mem_append_left _ (List.mem_append_right _ hmem)

/-- Witness for C8: in the concrete report for a single missing core
file, the row carries the owner derived from the second path segment. -/
theorem c8_witness :
    ∃ seg, secondSeg "synnergy-network/core/a.go" = some seg ∧
      fileRowStr "synnergy-network/core/a.go" (ownerMapGetD seg) "High" ∈
        ["# Stage 1 Inventory Audit Report", "", "Documented files: 1",
         "Documented counts - core: 1, GUI: 0, CLI: 0", "Actual files: 0",
         "Actual counts - core: 0, GUI: 0, CLI: 0", "", "## Missing Files (1)",
         "| File | Owner | Priority |", "| --- | --- | --- |",
         "| synnergy-network/core/a.go | Core Team | High |", "",
         "## Undocumented Files (0)", "(none)", "", "## Dependencies"] :=
  (c8_owner_column {"synnergy-network/core/a.go"} ∅ [] _
    (by
      have hm : missingList {"synnergy-network/core/a.go"} ∅ =
          ["synnergy-network/core/a.go"] := by
        simp [missingList, Finset.sort_singleton]
      have hu : undocumentedList {"synnergy-network/core/a.go"} ∅ = [] := by
        simp [undocumentedList]
      have hs : ({"synnergy-network/core/a.go"} : Finset String).sort (· ≤ ·) =
          ["synnergy-network/core/a.go"] := Finset.sort_singleton _ _
      have hs0 : ((∅ : Finset String)).sort (· ≤ ·) = ([] : List String) :=
        Finset.sort_empty _
      unfold generate_report_lines
      rw [hm, hu]
      simp only [summaryHeaderLines, computeCountsOfSet, hs, hs0]
      decide)
    "synnergy-network/core/a.go").1
    (by simp [missingList, Finset.sort_singleton])

/-- C10: `compute_counts` is total on every list of strings; a string with
no slash splits into a single part, so the `len(parts) > 1` guard skips it
and it contributes to no count. -/
theorem c10_no_slash_skipped (p : String) (h : p.toList.contains '/' = false) :
    pathParts p = [p] ∧
      (∀ counts, countStep counts p = counts) ∧
      (∀ ps k, countsGet (compute_counts (ps ++ [p])) k =
        countsGet (compute_counts ps) k) := by
  have hp : pathParts p = [p] := pathParts_no_slash p h
  have hstep : ∀ counts, countStep counts p = counts := by
    intro counts
    rw [countStep_eq, hp]
  refine ⟨hp, hstep, fun ps k => ?_⟩
  unfold compute_counts
  rw [List.foldl_append, List.foldl_cons, hstep, List.foldl_nil]

/-- Witness for C10 at the slash-free path `"README"`. -/
theorem c10_witness :
    pathParts "README" = ["README"] ∧
      (∀ counts, countStep counts "README" = counts) ∧
      (∀ ps k, countsGet (compute_counts (ps ++ ["README"])) k =
        countsGet (compute_counts ps) k) :=
  c10_no_slash_skipped "README" (by decide)

end InventoryAudit
